import Mathlib

/-
Verification development for the DroneDB index-synchronization engine and
EXIF metadata extraction (src/libs/ddb.cpp, src/exif.cpp, src/utils.h).

Embedding conventions:
* A filesystem path is a list of segments, kept relative to the tracked root
  (the generic forward-slash string of the C++ code is the interleaving of
  the segments with "/"); the tracked root itself is the empty list.
* The filesystem is a finite tree of files and directories, frozen for the
  duration of one call; each node carries its name, its modification time and
  (for files) its content.
* SHA-256 over file contents is modelled as the content string itself, a
  collision-free idealization of the real fingerprint.
* The entries table is a list of rows; SELECT takes the first row with a
  matching path, UPDATE rewrites every non-path column of the matching rows,
  DELETE drops the matching rows, INSERT appends.
* Numeric EXIF computations (float/double in the C++ code) are modelled over
  the exact rationals; the claims under test are about the algebraic
  formulas, not about rounding.
-/

abbrev RPath := List String

/-- Model of fs::path::filename() for a relative path: its last segment. -/
def pathFilename (p : RPath) : String := (p.getLast?).getD ""

/-- The proper ancestors of a path produced by the C++ loop
    `while (rp.has_parent_path()) { rp = rp.parent_path(); ... }`:
    the prefixes of length `p.length - 1`, ..., `1`, in that order. -/
def parentPaths (p : RPath) : List RPath :=
  (List.range (p.length - 1)).reverse.map (fun k => p.take (k + 1))

mutual
inductive FSTree where
  | file (name : String) (mtime : Int) (content : String) : FSTree
  | dir (name : String) (mtime : Int) (children : FSForest) : FSTree

inductive FSForest where
  | nil : FSForest
  | cons (t : FSTree) (rest : FSForest) : FSForest
end

def FSTree.name : FSTree → String
  | .file n _ _ => n
  | .dir n _ _ => n

def FSTree.mtime : FSTree → Int
  | .file _ m _ => m
  | .dir _ m _ => m

def FSTree.isDir : FSTree → Bool
  | .file _ _ _ => false
  | .dir _ _ _ => true

/-- Directory-entry lookup by name (first child carrying the name). -/
def FSForest.findName : FSForest → String → Option FSTree
  | .nil, _ => none
  | .cons t rest, n => if t.name = n then some t else rest.findName n

/-- Resolve a root-relative path against the frozen filesystem. -/
def lookupFS (t : FSTree) : RPath → Option FSTree
  | [] => some t
  | seg :: rest =>
    match t with
    | .file _ _ _ => none
    | .dir _ _ cs =>
      match cs.findName seg with
      | some c => lookupFS c rest
      | none => none

/-- Resolution against a directory's children (the nonempty-path case of
    lookupFS at a directory node). -/
def lookupForest (cs : FSForest) : RPath → Option FSTree
  | [] => none
  | seg :: rest =>
    match cs.findName seg with
    | some c => lookupFS c rest
    | none => none

/-- Model of utils::getModifiedTime: the stat mtime of the node. -/
def getModifiedTime (node : FSTree) : Int := node.mtime

/-- Model of the SHA-256 content fingerprint (Hash::fileSHA256): the content
    itself, a collision-free idealization. -/
def fileSHA256 (content : String) : String := content

/-- Hash::fileSHA256 applied to a path: reads the file there and hashes it. -/
def hashFile (node : FSTree) : String :=
  match node with
  | .file _ _ c => fileSHA256 c
  | .dir _ _ _ => ""

/-- One row of the entries table; also the in-memory Entry record the engine
    fills before persisting (the two have the same fields in the source). -/
structure Entry where
  path : RPath
  hash : String
  type : String
  meta : String
  mtime : Int
  size : Int
  depth : Int
  pointGeom : String
  polygonGeom : String
deriving DecidableEq, Repr

abbrev DB := List Entry

def emptyEntry : Entry :=
  { path := [], hash := "", type := "", meta := "", mtime := 0, size := 0,
    depth := 0, pointGeom := "", polygonGeom := "" }

/-- SELECT ... FROM entries WHERE path = ? (first matching row). -/
def findRow (db : DB) (p : RPath) : Option Entry :=
  db.find? (fun r => r.path = p)

/-- The effect of UPDATE_QUERY on one matching row: every column except the
    key column path is replaced. -/
def updatedRow (r e : Entry) : Entry :=
  { r with hash := e.hash, type := e.type, meta := e.meta, mtime := e.mtime,
           size := e.size, depth := e.depth, pointGeom := e.pointGeom,
           polygonGeom := e.polygonGeom }

/-- UPDATE entries SET ... WHERE path = e.path. -/
def dbUpdate (db : DB) (e : Entry) : DB :=
  db.map (fun r => if r.path = e.path then updatedRow r e else r)

/-- DELETE FROM entries WHERE path = ?. -/
def dbDelete (db : DB) (p : RPath) : DB :=
  db.filter (fun r => r.path ≠ p)

/-- INSERT INTO entries VALUES (...). -/
def dbInsert (db : DB) (e : Entry) : DB := db ++ [e]

/-- One "<op>\t<path>" line on standard output, op in {A, U, D}. -/
inductive OutLine where
  | A (p : RPath)
  | U (p : RPath)
  | D (p : RPath)
deriving DecidableEq, Repr

def OutLine.path : OutLine → RPath
  | .A p => p
  | .U p => p
  | .D p => p

structure ParseEntryOpts where
  withHash : Bool

/-- Modelled from the spec: parseEntry is the external entry classifier
    (`classify(path, root, opts) → Entry`, §6 of the spec), whose
    implementation is not part of this repository. Per the spec it returns a
    fully populated Entry whose path is the normalized root-relative path of
    the object, whose hash is the content fingerprint for files (empty for
    directories, computed only when opts.withHash), whose mtime and size are
    the live filesystem values (0 size for directories), and whose depth is
    the number of path segments; the artifact kind, metadata document and
    geometries are opaque to the engine and modelled by simple stand-ins. -/
def parseEntry (node : FSTree) (relPath : RPath) (opts : ParseEntryOpts) : Entry :=
  { path := relPath
    hash :=
      match node with
      | .file _ _ c => if opts.withHash then fileSHA256 c else ""
      | .dir _ _ _ => ""
    type := if node.isDir then "directory" else "generic"
    meta := ""
    mtime := getModifiedTime node
    size :=
      match node with
      | .file _ _ c => (c.length : Int)
      | .dir _ _ _ => 0
    depth := (relPath.length : Int)
    pointGeom := ""
    polygonGeom := "" }

/-- checkUpdate (src/libs/ddb.cpp:185): decides whether a tracked entry
    changed. e.mtime is set to the live value; if it equals the stored one,
    no change; if it differs on a folder, changed; if it differs on a file,
    the content is rehashed and compared with the stored hash. -/
def checkUpdate (e : Entry) (node : FSTree) (dbMtime : Int) (dbHash : String) :
    Bool × Entry :=
  let folder := node.isDir
  let e1 := { e with mtime := getModifiedTime node }
  if e1.mtime ≠ dbMtime then
    if folder then (true, e1)
    else
      let e2 := { e1 with hash := hashFile node }
      if dbHash ≠ e2.hash then (true, e2) else (false, e2)
  else (false, e1)

inductive DdbError where
  | fsError (msg : String)
  | dbError (msg : String)
deriving DecidableEq, Repr

/-- Modelled from the spec: utils::pathsAreChildren (utils.cpp is not part of
    this repository). A candidate is inside the root iff walking its segments
    never steps above the root; "." stays, ".." moves up one level. -/
def pathStaysInsideAux : Int → List String → Bool
  | _, [] => true
  | d, seg :: rest =>
    if seg = ".." then (if d ≤ 0 then false else pathStaysInsideAux (d - 1) rest)
    else if seg = "." then pathStaysInsideAux d rest
    else pathStaysInsideAux (d + 1) rest

def pathsAreChildren (paths : List RPath) : Bool :=
  paths.all (fun p => pathStaysInsideAux 0 p)

/- The visit sequence of fs::recursive_directory_iterator with
   i.disable_recursion_pending() applied to an entry exactly when
   `prune name depth` holds: the entry itself is still yielded, but its
   children are not visited. Entries directly below the iteration origin
   have depth 0, as in the C++ iterator. -/
mutual
def visitEntry (prune : String → Nat → Bool) (t : FSTree) (rp : RPath)
    (depth : Nat) : List (RPath × FSTree) :=
  match t with
  | .file _ _ _ => []
  | .dir n _ cs => if prune n depth then [] else visitForest prune cs rp (depth + 1)

def visitForest (prune : String → Nat → Bool) (f : FSForest) (base : RPath)
    (depth : Nat) : List (RPath × FSTree) :=
  match f with
  | .nil => []
  | .cons t rest =>
    (base ++ [t.name], t) ::
      (visitEntry prune t (base ++ [t.name]) depth ++ visitForest prune rest base depth)
end

/-- Insertion into the `directories` map (std::unordered_map keyed by the
    path, value always true): membership is what matters; the model keeps
    insertion order. -/
def insertPathSet (l : List RPath) (p : RPath) : List RPath :=
  if p ∈ l then l else l ++ [p]

/-- The C++ while-loop that records every ancestor directory of rp. -/
def addAncestorDirs (dirs : List RPath) (p : RPath) : List RPath :=
  (parentPaths p).foldl insertPathSet dirs

structure GiplAcc where
  result : List RPath
  dirs : List RPath

/-- Per-entry body of the recursive iteration inside getIndexPathList. -/
def giplProcessEntry (includeDirs : Bool) (acc : GiplAcc) (en : RPath × FSTree) :
    GiplAcc :=
  let rp := en.1
  let acc1 :=
    if en.2.isDir ∧ includeDirs then { acc with dirs := insertPathSet acc.dirs rp }
    else { acc with result := acc.result ++ [rp] }
  if includeDirs then { acc1 with dirs := addAncestorDirs acc1.dirs rp } else acc1

/-- Per-candidate body of getIndexPathList (src/libs/ddb.cpp:95). -/
def giplStep (world : FSTree) (includeDirs : Bool) (acc : GiplAcc) (p : RPath) :
    Except DdbError GiplAcc :=
  if pathFilename p = ".ddb" then .ok acc
  else
    match lookupFS world p with
    | some (FSTree.dir _ _ cs) =>
      let entries := visitForest (fun n _ => n = ".ddb") cs p 0
      let acc1 := entries.foldl (giplProcessEntry includeDirs) acc
      .ok { acc1 with dirs := insertPathSet acc1.dirs p }
    | some (FSTree.file _ _ _) =>
      let acc1 :=
        { acc with result := acc.result ++ [p] }
      .ok (if includeDirs then { acc1 with dirs := addAncestorDirs acc1.dirs p } else acc1)
    | none => .error (DdbError.fsError "Path does not exist")

/-- getIndexPathList (src/libs/ddb.cpp:95): candidates named .ddb are
    skipped; directories are expanded with recursion into .ddb pruned;
    ancestor directories are collected when includeDirs; candidates outside
    the root or missing on disk abort the call. The directories key set is
    appended to the result at the end. -/
def getIndexPathList (world : FSTree) (paths : List RPath) (includeDirs : Bool) :
    Except DdbError (List RPath) :=
  if ¬ pathsAreChildren paths then
    .error (DdbError.fsError "Some paths are not contained within the root")
  else do
    let acc ← paths.foldlM (giplStep world includeDirs) { result := [], dirs := [] }
    return acc.result ++ acc.dirs

/-- The two disable_recursion_pending conditions of getPathList: a .ddb
    entry, or (when maxDepth > 0) an entry whose iterator depth has reached
    maxDepth - 1. -/
def gplPrune (maxDepth : Int) (n : String) (depth : Nat) : Bool :=
  n == ".ddb" || (decide ((0 : Int) < maxDepth) && decide ((maxDepth - 1 : Int) ≤ (depth : Int)))

/-- Per-candidate body of getPathList (src/libs/ddb.cpp:146). -/
def gplStep (world : FSTree) (includeDirs : Bool) (maxDepth : Int)
    (acc : List RPath) (p : RPath) : Except DdbError (List RPath) :=
  if pathFilename p = ".ddb" then .ok acc
  else
    match lookupFS world p with
    | some (FSTree.dir _ _ cs) =>
      let entries := visitForest (gplPrune maxDepth) cs p 0
      .ok (entries.foldl
        (fun res en =>
          if en.2.isDir then (if includeDirs then res ++ [en.1] else res)
          else res ++ [en.1]) acc)
    | some (FSTree.file _ _ _) => .ok (acc ++ [p])
    | none => .error (DdbError.fsError "Path does not exist")

/-- getPathList (src/libs/ddb.cpp:146): like getIndexPathList but without
    the containment check and the ancestor collection, plus a maximum
    recursion depth. -/
def getPathList (world : FSTree) (paths : List RPath) (includeDirs : Bool)
    (maxDepth : Int) : Except DdbError (List RPath) :=
  paths.foldlM (gplStep world includeDirs maxDepth) []

/-- Per-path body of the addToIndex loop (src/libs/ddb.cpp:228). In this
    embedding candidate paths are already root-relative and normalized, so
    the relPath computed by weakly_canonical/lexically_relative is the path
    itself. A path that cannot be read on disk aborts the call (stat /
    hashing / classification all throw on it). -/
def addStep (fsRoot : FSTree) (acc : DB × List OutLine) (p : RPath) :
    Except DdbError (DB × List OutLine) :=
  match lookupFS fsRoot p with
  | none => .error (DdbError.fsError "cannot stat path")
  | some node =>
    let relPath := p
    .ok (match findRow acc.1 relPath with
    | some r =>
      let cu := checkUpdate emptyEntry node r.mtime r.hash
      if cu.1 then
        let e := parseEntry node relPath { withHash := true }
        (dbUpdate acc.1 e, acc.2 ++ [OutLine.U e.path])
      else acc
    | none =>
      let e := parseEntry node relPath { withHash := true }
      (dbInsert acc.1 e, acc.2 ++ [OutLine.A e.path]))

/-- addToIndex (src/libs/ddb.cpp:228): resolve the candidates (ancestor
    directories included), then for each resolved path insert a new row or
    update the existing one when checkUpdate reports a change. -/
def addToIndex (fsRoot : FSTree) (db : DB) (paths : List RPath) :
    Except DdbError (DB × List OutLine) := do
  let pathList ← getIndexPathList fsRoot paths true
  pathList.foldlM (addStep fsRoot) (db, [])

/-- Per-path body of the removeFromIndex loop: DELETE the row, report it if
    at least one row was deleted (db->changes() >= 1). -/
def removeStep (acc : DB × List OutLine) (p : RPath) : DB × List OutLine :=
  let relPath := p
  let changes := (acc.1.filter (fun r => r.path = relPath)).length
  let db1 := dbDelete acc.1 relPath
  if changes ≥ 1 then (db1, acc.2 ++ [OutLine.D relPath]) else (db1, acc.2)

/-- removeFromIndex (src/libs/ddb.cpp:286). -/
def removeFromIndex (fsRoot : FSTree) (db : DB) (paths : List RPath) :
    Except DdbError (DB × List OutLine) := do
  let pathList ← getIndexPathList fsRoot paths false
  return pathList.foldl removeStep (db, [])

/-- Per-row body of the syncIndex loop (src/libs/ddb.cpp:304): if the file
    still exists, update when checkUpdate reports a change; otherwise delete
    the row and report it. -/
def syncStep (fsRoot : FSTree) (acc : DB × List OutLine) (r : Entry) :
    DB × List OutLine :=
  match lookupFS fsRoot r.path with
  | some node =>
    let cu := checkUpdate emptyEntry node r.mtime r.hash
    if cu.1 then
      let e := parseEntry node r.path { withHash := true }
      (dbUpdate acc.1 e, acc.2 ++ [OutLine.U e.path])
    else acc
  | none => (dbDelete acc.1 r.path, acc.2 ++ [OutLine.D r.path])

/-- syncIndex (src/libs/ddb.cpp:304): one pass over every stored row. -/
def syncIndex (fsRoot : FSTree) (db : DB) : DB × List OutLine :=
  db.foldl (syncStep fsRoot) (db, [])

/- ===== Transactional storage model (failure-aware add/remove/sync) =====

   The pure functions above describe the failure-free runs. To settle the
   atomicity claim the same loops are given again with their trace of
   storage commands made explicit and with the runtime failure points of
   the C++ code (hashing a file, classifying a file, executing a prepared
   statement) injected through an oracle. The storage engine semantics
   (BEGIN TRANSACTION / COMMIT, rollback of an uncommitted transaction when
   the connection unwinds) is runTrace. -/

inductive Mut where
  | ins (e : Entry)
  | upd (e : Entry)
  | del (p : RPath)
deriving DecidableEq, Repr

def applyMut (db : DB) : Mut → DB
  | .ins e => dbInsert db e
  | .upd e => dbUpdate db e
  | .del p => dbDelete db p

inductive DbOp where
  | begin
  | commit
  | mut (m : Mut)
deriving DecidableEq, Repr

/-- The storage engine applied to a trace of commands: statements between
    BEGIN TRANSACTION and COMMIT act on a pending copy that becomes durable
    only at COMMIT; a trace that ends with the transaction still open (the
    exception unwinding and closing the connection) leaves the committed
    state untouched. -/
def runTrace : DB → Option DB → List DbOp → DB
  | committed, _, [] => committed
  | committed, none, DbOp.begin :: rest => runTrace committed (some committed) rest
  | committed, some pending, DbOp.begin :: rest => runTrace committed (some pending) rest
  | _, some pending, DbOp.commit :: rest => runTrace pending none rest
  | committed, none, DbOp.commit :: rest => runTrace committed none rest
  | committed, some pending, DbOp.mut m :: rest => runTrace committed (some (applyMut pending m)) rest
  | committed, none, DbOp.mut m :: rest => runTrace (applyMut committed m) none rest

/-- Which runtime operations fail in this run: hashing the file at a path
    (I/O error inside checkUpdate), classifying the entry at a path (the
    external parseEntry), executing a statement against the storage. -/
structure FailOracle where
  hashFail : RPath → Bool
  parseFail : RPath → Bool
  execFail : Mut → Bool

/-- The failure-free oracle. -/
def noFail : FailOracle :=
  { hashFail := fun _ => false, parseFail := fun _ => false, execFail := fun _ => false }

/-- checkUpdate with the content-hash read allowed to fail. -/
def checkUpdateE (o : FailOracle) (e : Entry) (p : RPath) (node : FSTree)
    (dbMtime : Int) (dbHash : String) : Except DdbError (Bool × Entry) :=
  let folder := node.isDir
  let e1 := { e with mtime := getModifiedTime node }
  if e1.mtime ≠ dbMtime then
    if folder then .ok (true, e1)
    else if o.hashFail p then .error (DdbError.fsError "cannot hash file")
    else
      let e2 := { e1 with hash := hashFile node }
      if dbHash ≠ e2.hash then .ok (true, e2) else .ok (false, e2)
  else .ok (false, e1)

/-- The external classifier with its failure possibility. -/
def parseEntryE (o : FailOracle) (node : FSTree) (relPath : RPath)
    (opts : ParseEntryOpts) : Except DdbError Entry :=
  if o.parseFail relPath then .error (DdbError.fsError "cannot parse entry")
  else .ok (parseEntry node relPath opts)

/-- The in-transaction state: the pending view of the table, the trace of
    storage commands executed so far, the lines printed so far. -/
structure TxState where
  pending : DB
  trace : List DbOp
  out : List OutLine

/-- addToIndex loop body with explicit trace and failure points. An error
    carries the trace executed up to the failure. -/
def addStepT (o : FailOracle) (fsRoot : FSTree) (st : TxState) (p : RPath) :
    Except (DdbError × List DbOp) TxState :=
  match lookupFS fsRoot p with
  | none => .error (DdbError.fsError "cannot stat path", st.trace)
  | some node =>
    let relPath := p
    match findRow st.pending relPath with
    | some r =>
      match checkUpdateE o emptyEntry relPath node r.mtime r.hash with
      | .error err => .error (err, st.trace)
      | .ok cu =>
        if cu.1 then
          match parseEntryE o node relPath { withHash := true } with
          | .error err => .error (err, st.trace)
          | .ok e =>
            if o.execFail (Mut.upd e) then .error (DdbError.dbError "statement failed", st.trace)
            else .ok { pending := dbUpdate st.pending e,
                       trace := st.trace ++ [DbOp.mut (Mut.upd e)],
                       out := st.out ++ [OutLine.U e.path] }
        else .ok st
    | none =>
      match parseEntryE o node relPath { withHash := true } with
      | .error err => .error (err, st.trace)
      | .ok e =>
        if o.execFail (Mut.ins e) then .error (DdbError.dbError "statement failed", st.trace)
        else .ok { pending := dbInsert st.pending e,
                   trace := st.trace ++ [DbOp.mut (Mut.ins e)],
                   out := st.out ++ [OutLine.A e.path] }

/-- addToIndex with explicit trace: path resolution happens before the
    transaction opens; the loop runs inside it; COMMIT only after every step
    succeeded. -/
def addToIndexT (o : FailOracle) (fsRoot : FSTree) (db : DB) (paths : List RPath) :
    List DbOp × Except DdbError (DB × List OutLine) :=
  match getIndexPathList fsRoot paths true with
  | .error err => ([], .error err)
  | .ok pathList =>
    match pathList.foldlM (addStepT o fsRoot) { pending := db, trace := [DbOp.begin], out := [] } with
    | .ok st => (st.trace ++ [DbOp.commit], .ok (st.pending, st.out))
    | .error pair => (pair.2, .error pair.1)

/-- removeFromIndex loop body with explicit trace and failure points. -/
def removeStepT (o : FailOracle) (st : TxState) (p : RPath) :
    Except (DdbError × List DbOp) TxState :=
  let relPath := p
  if o.execFail (Mut.del relPath) then .error (DdbError.dbError "statement failed", st.trace)
  else
    let changes := (st.pending.filter (fun r => r.path = relPath)).length
    let st1 : TxState :=
      { pending := dbDelete st.pending relPath,
        trace := st.trace ++ [DbOp.mut (Mut.del relPath)],
        out := st.out }
    .ok (if changes ≥ 1 then { st1 with out := st.out ++ [OutLine.D relPath] } else st1)

/-- removeFromIndex with explicit trace. -/
def removeFromIndexT (o : FailOracle) (fsRoot : FSTree) (db : DB) (paths : List RPath) :
    List DbOp × Except DdbError (DB × List OutLine) :=
  match getIndexPathList fsRoot paths false with
  | .error err => ([], .error err)
  | .ok pathList =>
    match pathList.foldlM (removeStepT o) { pending := db, trace := [DbOp.begin], out := [] } with
    | .ok st => (st.trace ++ [DbOp.commit], .ok (st.pending, st.out))
    | .error pair => (pair.2, .error pair.1)

/-- syncIndex loop body with explicit trace and failure points. -/
def syncStepT (o : FailOracle) (fsRoot : FSTree) (st : TxState) (r : Entry) :
    Except (DdbError × List DbOp) TxState :=
  match lookupFS fsRoot r.path with
  | some node =>
    match checkUpdateE o emptyEntry r.path node r.mtime r.hash with
    | .error err => .error (err, st.trace)
    | .ok cu =>
      if cu.1 then
        match parseEntryE o node r.path { withHash := true } with
        | .error err => .error (err, st.trace)
        | .ok e =>
          if o.execFail (Mut.upd e) then .error (DdbError.dbError "statement failed", st.trace)
          else .ok { pending := dbUpdate st.pending e,
                     trace := st.trace ++ [DbOp.mut (Mut.upd e)],
                     out := st.out ++ [OutLine.U e.path] }
      else .ok st
  | none =>
    if o.execFail (Mut.del r.path) then .error (DdbError.dbError "statement failed", st.trace)
    else .ok { pending := dbDelete st.pending r.path,
               trace := st.trace ++ [DbOp.mut (Mut.del r.path)],
               out := st.out ++ [OutLine.D r.path] }

/-- syncIndex with explicit trace. -/
def syncIndexT (o : FailOracle) (fsRoot : FSTree) (db : DB) :
    List DbOp × Except DdbError (DB × List OutLine) :=
  match db.foldlM (syncStepT o fsRoot) { pending := db, trace := [DbOp.begin], out := [] } with
  | .ok st => (st.trace ++ [DbOp.commit], .ok (st.pending, st.out))
  | .error pair => (pair.2, .error pair.1)

/-- A trace consisting of data statements only (no transaction control). -/
def MutsOnly (l : List DbOp) : Prop := ∀ op ∈ l, ∃ m, op = DbOp.mut m

/- ===== EXIF metadata extraction (src/exif.cpp) ===== -/

/-- A rational EXIF value (Exiv2::Rational): numerator and denominator. -/
abbrev ExifRational := Int × Int

/-- Raw per-tag metadata of one image, the tag-keyed lookup the parser works
    over. Where the source resolves an ordered synonym list with findKey
    (the Photo-namespace tag falling back to the Image-namespace tag), both
    candidates are kept as separate optional fields where a claim could see
    the difference (make/model) and collapsed into the first present value
    elsewhere; none means no synonym of the tag is present. Numeric tag
    values are rationals (exact counterparts of the C++ float reads). -/
structure ExifData where
  pixelXDimension : Option Int := none
  pixelYDimension : Option Int := none
  lensMake : Option String := none
  imageMake : Option String := none
  lensModel : Option String := none
  imageModel : Option String := none
  focalLengthIn35mmFilm : Option ℚ := none
  focalLength : Option ℚ := none
  focalPlaneResolutionUnit : Option Int := none
  focalPlaneXResolution : Option ℚ := none
  gpsLatitude : Option (ExifRational × ExifRational × ExifRational) := none
  gpsLatitudeRef : Option String := none

structure ImageSize where
  width : Int
  height : Int
deriving DecidableEq, Repr

/-- Parser::extractImageSize (src/exif.cpp:19): both pixel-dimension tags,
    or the (-1, -1) sentinel when either is missing. -/
def extractImageSize (d : ExifData) : ImageSize :=
  match d.pixelXDimension, d.pixelYDimension with
  | some w, some h => { width := w, height := h }
  | some _, none => { width := -1, height := -1 }
  | none, some _ => { width := -1, height := -1 }
  | none, none => { width := -1, height := -1 }

/-- Parser::extractMake: first of Exif.Photo.LensMake, Exif.Image.Make. -/
def extractMake (d : ExifData) : String :=
  (d.lensMake <|> d.imageMake).getD "unknown"

/-- Parser::extractModel: first of Exif.Photo.LensModel, Exif.Image.Model. -/
def extractModel (d : ExifData) : String :=
  (d.lensModel <|> d.imageModel).getD "unknown"

/-- utils::toLower: character-wise lowercasing. -/
def toLowerStr (s : String) : String := String.mk (s.data.map Char.toLower)

/-- utils::toUpper: character-wise uppercasing. -/
def toUpperStr (s : String) : String := String.mk (s.data.map Char.toUpper)

/-- utils::trim: drop whitespace from both ends. -/
def trimStr (s : String) : String :=
  String.mk (((s.data.dropWhile Char.isWhitespace).reverse.dropWhile Char.isWhitespace).reverse)

/-- std::string::find: the first position where the needle occurs as a
    substring (position 0 for the empty needle), none when it does not. -/
def findSub (hay need : List Char) : Option Nat :=
  (List.range (hay.length + 1)).find? (fun i => need.isPrefixOf (hay.drop i))

/-- std::string::erase(pos, len). -/
def eraseSub (l : List Char) (pos len : Nat) : List Char :=
  l.take pos ++ l.drop (pos + len)

/-- The model-stripping loop of Parser::extractSensor,
    `while ((pos = model.find(make)) != npos) model.erase(pos, make.length())`,
    indexed by fuel; none means the fuel ran out. For a nonempty needle,
    hay.length + 1 fuel always suffices (stripFuel_isSome_of_ne_nil below),
    so the fuel only cuts off runs of the loop that never terminate. -/
def stripFuel : Nat → List Char → List Char → Option (List Char)
  | 0, _, _ => none
  | fuel + 1, need, hay =>
    match findSub hay need with
    | none => some hay
    | some pos => stripFuel fuel need (eraseSub hay pos need.length)

/-- Parser::extractSensor (src/exif.cpp:53): lowercase "make model", with
    every occurrence of a known make stripped from the model first. The
    result is none exactly when the C++ while-loop does not terminate. -/
def extractSensor (d : ExifData) : Option String :=
  let make := toLowerStr (extractMake d)
  let model := toLowerStr (extractModel d)
  let strippedModel : Option (List Char) :=
    if make ≠ "unknown" then stripFuel (model.data.length + 1) make.data model.data
    else some model.data
  strippedModel.map (fun m => trimStr make ++ " " ++ trimStr (String.mk m))

/-- Parser::getMmPerUnit (src/exif.cpp:120): millimeters per focal-plane
    resolution unit; 2 = inch = 25.4 mm, 3 = centimeter = 10 mm, any other
    value unknown (0, logged, not an error). -/
def getMmPerUnit (resolutionUnit : Int) : ℚ :=
  if resolutionUnit = 2 then 254 / 10
  else if resolutionUnit = 3 then 10
  else 0

/-- Parser::extractSensorWidth (src/exif.cpp:102): 0 when the resolution
    unit or X-resolution tag is missing or the unit is unknown; otherwise
    image width in pixels (the -1 sentinel included) times units-per-pixel
    times mm-per-unit. -/
def extractSensorWidth (d : ExifData) : ℚ :=
  match d.focalPlaneResolutionUnit, d.focalPlaneXResolution with
  | some fUnit, some fXRes =>
    let mmPerUnit := getMmPerUnit fUnit
    if mmPerUnit = 0 then 0
    else
      let pixelsPerUnit : ℚ := fXRes
      let unitsPerPixel : ℚ := 1 / pixelsPerUnit
      let widthInPixels : ℚ := ((extractImageSize d).width : ℚ)
      widthInPixels * unitsPerPixel * mmPerUnit
  | some _, none => 0
  | none, some _ => 0
  | none, none => 0

structure Focal where
  f35 : ℚ
  ratio : ℚ
deriving DecidableEq, Repr

/-- The else-branch of Parser::computeFocal: no usable 35mm-film tag, so
    derive the crop ratio from the sensor width, taken from the resolution
    tags or, when that computation yields exactly 0, from the static
    make+model lookup table (sensorData, whose contents live outside this
    repository and are a parameter here). none exactly when extractSensor
    does not terminate. -/
def computeFocalFallback (sensorData : String → Option ℚ) (d : ExifData) :
    Option Focal :=
  (extractSensor d).map (fun sensor =>
    let sensorWidth := extractSensorWidth d
    let sensorWidth :=
      if sensorWidth = 0 ∧ (sensorData sensor).isSome then (sensorData sensor).getD 0
      else sensorWidth
    match d.focalLength with
    | some focal =>
      if sensorWidth > 0 then
        { f35 := 36 * (focal / sensorWidth), ratio := focal / sensorWidth }
      else { f35 := 0, ratio := 0 }
    | none => { f35 := 0, ratio := 0 })

/-- Parser::computeFocal (src/exif.cpp:74): a present and positive
    focal-length-in-35mm-film tag wins (ratio = f35 / 36); otherwise the
    sensor-width fallback computes ratio = focal / sensorWidth and
    f35 = 36 * ratio, or (0, 0) when data is missing. -/
def computeFocal (sensorData : String → Option ℚ) (d : ExifData) : Option Focal :=
  match d.focalLengthIn35mmFilm with
  | some v =>
    if v > 0 then some { f35 := v, ratio := v / 36 }
    else computeFocalFallback sensorData d
  | none => computeFocalFallback sensorData d

/-- Parser::evalFrac (src/exif.cpp:171): a rational with zero denominator
    evaluates to 0 instead of failing. -/
def evalFrac (rational : ExifRational) : ℚ :=
  if rational.2 = 0 then 0 else (rational.1 : ℚ) / (rational.2 : ℚ)

/-- Parser::geoToDecimal (src/exif.cpp:152): missing geotag gives 0; the
    hemisphere reference negates for "S"/"W" compared after uppercasing;
    decimal = sign * (deg + min / 60 + sec / 3600). -/
def geoToDecimal (geoTag : Option (ExifRational × ExifRational × ExifRational))
    (geoRefTag : Option String) : ℚ :=
  match geoTag with
  | none => 0
  | some (dms : ExifRational × ExifRational × ExifRational) =>
    let sign : ℚ :=
      match geoRefTag with
      | some ref =>
        let refU := toUpperStr ref
        if refU = "S" ∨ refU = "W" then -1 else 1
      | none => 1
    let degrees := evalFrac dms.1
    let minutes := evalFrac dms.2.1
    let seconds := evalFrac dms.2.2
    sign * (degrees + minutes / 60 + seconds / 3600)

/- ===== Derived notions used by the theorems ===== -/

/-- What one pass of syncIndex does to the stored row rc when the snapshot
    row rt with the same path is processed: delete when the file is gone,
    rewrite the non-path columns from the freshly classified entry when
    checkUpdate reports a change, keep the row untouched otherwise. -/
def rowAfterSync (fs : FSTree) (rt rc : Entry) : Option Entry :=
  match lookupFS fs rt.path with
  | some node =>
    if (checkUpdate emptyEntry node rt.mtime rt.hash).1 then
      some (updatedRow rc (parseEntry node rt.path { withHash := true }))
    else some rc
  | none => none

/-- The per-row outcome of one syncIndex pass. -/
def syncOutcome (fs : FSTree) (rt : Entry) : Option Entry := rowAfterSync fs rt rt

/-- The lines one syncIndex pass prints for the snapshot row rt. -/
def syncLines (fs : FSTree) (rt : Entry) : List OutLine :=
  match lookupFS fs rt.path with
  | some node =>
    if (checkUpdate emptyEntry node rt.mtime rt.hash).1 then [OutLine.U rt.path] else []
  | none => [OutLine.D rt.path]

/-- A stored row on which a sync pass is a no-op: its file exists and the
    change detector reports no change. -/
def StableRow (fs : FSTree) (r : Entry) : Prop :=
  ∃ node, lookupFS fs r.path = some node ∧
    (checkUpdate emptyEntry node r.mtime r.hash).1 = false

/-- A wellformed filesystem name: what a real directory entry can be called
    (not the . or .. links, nonempty, no path separator, no drive colon). -/
def wfNameB (s : String) : Bool :=
  (s ≠ "..") && (s ≠ ".") && (s ≠ "") &&
    s.data.all (fun ch => (ch ≠ '/') && (ch ≠ ':'))

def FSForest.names : FSForest → List String
  | .nil => []
  | .cons t rest => t.name :: rest.names

/- A wellformed filesystem: every name is wellformed and sibling names are
   distinct, at every level. -/
mutual
def FSTree.wf : FSTree → Bool
  | .file n _ _ => wfNameB n
  | .dir n _ cs => wfNameB n && cs.wf

def FSForest.wf : FSForest → Bool
  | .nil => true
  | .cons t rest => t.wf && rest.wf && !(decide (t.name ∈ rest.names))
end

/-- The property claimed of every stored path: it is root-relative and
    normalized (no .. segments, no current-directory segments, no empty
    segments, no separators or drive colons inside a segment) and it
    designates a location inside the tracked root (it resolves against the
    root's subtree). Relativity is representational: a segment list is
    interpreted against the root, never against / or a drive. -/
def goodEntryPath (fs : FSTree) (p : RPath) : Prop :=
  (∃ node, lookupFS fs p = some node) ∧ ∀ seg ∈ p, wfNameB seg = true

/-- The resolved list of a path-resolution call, empty on error (used only
    to state membership facts about concrete runs). -/
def resolvedOrEmpty (r : Except DdbError (List RPath)) : List RPath :=
  match r with
  | .ok l => l
  | .error _ => []

/- ===== Concrete inputs used by witnesses and counterexamples ===== -/

def FSForest.ofList : List FSTree → FSForest
  | [] => .nil
  | t :: ts => .cons t (FSForest.ofList ts)

/-- A root holding img.jpg and sub/note.txt. -/
def demoFS : FSTree :=
  .dir "root" 0 (FSForest.ofList
    [.file "img.jpg" 10 "JPEG",
     .dir "sub" 5 (FSForest.ofList [.file "note.txt" 7 "hello"])])

/-- A root where a.txt was touched (mtime 2) without changing its content
    and b.txt is untouched. -/
def touchedFS : FSTree :=
  .dir "root" 0 (FSForest.ofList
    [.file "a.txt" 2 "same", .file "b.txt" 5 "bb"])

/-- The stored row of a.txt: old mtime 1, hash still matching the content. -/
def rowA : Entry :=
  { path := ["a.txt"], hash := "same", type := "generic", meta := "",
    mtime := 1, size := 4, depth := 1, pointGeom := "", polygonGeom := "" }

/-- The stored row of b.txt, in sync with the filesystem. -/
def rowB : Entry :=
  { path := ["b.txt"], hash := "bb", type := "generic", meta := "",
    mtime := 5, size := 2, depth := 1, pointGeom := "", polygonGeom := "" }

/-- The stored row of a file that no longer exists on disk. -/
def rowGone : Entry :=
  { path := ["gone.txt"], hash := "zz", type := "generic", meta := "",
    mtime := 3, size := 2, depth := 1, pointGeom := "", polygonGeom := "" }

def touchedDB : DB := [rowA, rowB]

/-- A root containing a/b/c.txt, the depth-limiting example of the spec. -/
def depthFS : FSTree :=
  .dir "root" 0 (FSForest.ofList
    [.dir "a" 1 (FSForest.ofList
      [.dir "b" 2 (FSForest.ofList [.file "c.txt" 3 "x"])])])

/-- A root containing its private .ddb storage directory and one image. -/
def ddbFS : FSTree :=
  .dir "root" 0 (FSForest.ofList
    [.dir ".ddb" 1 (FSForest.ofList [.file "dbase.sqlite" 2 "db"]),
     .file "img.jpg" 3 "jpg"])

/-- An oracle whose storage statements all fail. -/
def allExecFail : FailOracle :=
  { hashFail := fun _ => false, parseFail := fun _ => false, execFail := fun _ => true }

/-- EXIF data with resolution tags but no pixel-dimension tags: the width
    sentinel -1 flows into the sensor-width product. -/
def exifNoDims : ExifData :=
  { focalPlaneResolutionUnit := some 2, focalPlaneXResolution := some 1 }

/-- EXIF data carrying only a 35mm-film focal length of 50. -/
def exif35 : ExifData :=
  { focalLengthIn35mmFilm := some 50 }

/-- EXIF data with a raw focal length of 24 and resolution tags that give a
    sensor width of 23.5 mm (235 px, 254 px per inch). -/
def exifRaw : ExifData :=
  { pixelXDimension := some 235, pixelYDimension := some 100,
    imageMake := some "Canon", imageModel := some "Canon EOS",
    focalLength := some 24,
    focalPlaneResolutionUnit := some 2, focalPlaneXResolution := some 254 }

/-- An empty sensor-width lookup table. -/
def noSensorData : String → Option ℚ := fun _ => none

/-- EXIF data whose Make tag is present but empty. -/
def exifEmptyMake : ExifData :=
  { imageMake := some "", imageModel := some "DJI" }

/-- Case-insensitive string equality, the comparison the spec means by
    "compares case-insensitively equal". -/
def ciEq (a b : String) : Prop := toUpperStr a = toUpperStr b

instance (a b : String) : Decidable (ciEq a b) := by
  unfold ciEq
  infer_instance

/-- What the rest of a sync pass does to a stored row, given the snapshot
    rows still to be processed: the first snapshot row with the same path
    decides (paths are unique in a wellformed table), untouched otherwise. -/
def syncRowMap (fs : FSTree) (todo : List Entry) (rc : Entry) : Option Entry :=
  match todo.find? (fun rt => rt.path = rc.path) with
  | some rt => rowAfterSync fs rt rc
  | none => some rc

/-- The effective sensor width of the focal-length fallback as the claim
    words it: the resolution-tag computation or, failing that (exactly 0),
    the static make+model lookup table keyed by the sensor identity. -/
def effSensorWidth (sensorData : String → Option ℚ) (d : ExifData) (sid : String) : ℚ :=
  if extractSensorWidth d = 0 ∧ (sensorData sid).isSome then (sensorData sid).getD 0
  else extractSensorWidth d

/- ===== Supporting lemmas ===== -/

lemma findSub_nil (hay : List Char) : findSub hay [] = some 0 := by
  unfold findSub
  rw [List.range_succ_eq_map]
  simp [List.find?_cons, List.isPrefixOf]

lemma stripFuel_isSome_of_ne_nil :
    ∀ (fuel : Nat) (need hay : List Char), need ≠ [] → hay.length < fuel →
      (stripFuel fuel need hay).isSome = true := by
  intro fuel
  induction fuel with
  | zero => intro need hay hne hlt; exact absurd hlt (by omega)
  | succ n ih =>
    intro need hay hne hlt
    cases hfind : findSub hay need with
    | none => simp [stripFuel, hfind]
    | some pos =>
      simp only [stripFuel, hfind]
      apply ih _ _ hne
      have hmem : pos ∈ List.range (hay.length + 1) :=
        List.mem_of_find?_eq_some hfind
      have hpos : pos < hay.length + 1 := List.mem_range.mp hmem
      have hpre : need.isPrefixOf (hay.drop pos) = true := by
        have := List.find?_some hfind
        simpa using this
      have hlen : need.length ≤ hay.length - pos := by
        have h1 : need <+: hay.drop pos := List.isPrefixOf_iff_prefix.mp hpre
        have h2 := h1.length_le
        simpa using h2
      have hneed : 0 < need.length := List.length_pos.mpr hne
      simp only [eraseSub, List.length_append, List.length_take, List.length_drop]
      omega

/- ===== Claim theorems ===== -/

/-- C6 (code bug witness): a path whose final segment is .ddb does reach the
    resolved output list when it is met during recursion — only recursion
    into it is pruned and only top-level candidates named .ddb are skipped.
    On a root that contains its own .ddb storage directory, both resolvers
    emit the .ddb path, against the claim (and against the source comment
    ".ddb files/dirs are always ignored and skipped"). -/
theorem c6_ddb_reaches_output :
    getIndexPathList ddbFS [[]] true = Except.ok [["img.jpg"], [".ddb"], []] ∧
    getPathList ddbFS [[]] true 0 = Except.ok [[".ddb"], ["img.jpg"]] ∧
    [".ddb"] ∈ resolvedOrEmpty (getIndexPathList ddbFS [[]] true) ∧
    [".ddb"] ∈ resolvedOrEmpty (getPathList ddbFS [[]] true 0) := by
  refine ⟨rfl, rfl, ?_, ?_⟩ <;> decide

/-- C5 counterexample: with maxDepth = 1 on a root containing a/b/c.txt the
    claim asserts that a/ is always resolved and a/b exactly when directory
    inclusion is requested; at includeDirs = true the resolved list is
    [a] and a/b is absent, refuting the biconditional (and at
    includeDirs = false even a/ is absent). -/
theorem c5_counterexample :
    ¬ (∀ b : Bool,
        ["a"] ∈ resolvedOrEmpty (getPathList depthFS [[]] b 1) ∧
        (["a", "b"] ∈ resolvedOrEmpty (getPathList depthFS [[]] b 1) ↔ b = true) ∧
        ["a", "b", "c.txt"] ∉ resolvedOrEmpty (getPathList depthFS [[]] b 1)) := by
  intro h
  exact absurd ((h true).2.1.mpr rfl) (by decide)

/-- C5 amended: with maxDepth = 1 recursion is disabled already at the
    entries directly below the root, so the resolved list is exactly [a/]
    when directory inclusion is requested and empty otherwise; neither a/b
    nor a/b/c.txt is ever reached. With maxDepth = 2 the list is [a/, a/b]
    under directory inclusion and empty without it (directory entries are
    emitted only when directory inclusion is requested), and c.txt is still
    never reached. -/
theorem c5_depth_limiting :
    ∀ b : Bool,
      getPathList depthFS [[]] b 1 = Except.ok (if b then [["a"]] else []) ∧
      getPathList depthFS [[]] b 2 = Except.ok (if b then [["a"], ["a", "b"]] else []) ∧
      ["a", "b", "c.txt"] ∉ resolvedOrEmpty (getPathList depthFS [[]] b 1) ∧
      ["a", "b", "c.txt"] ∉ resolvedOrEmpty (getPathList depthFS [[]] b 2) := by
  intro b
  cases b
  · exact ⟨rfl, rfl, by decide, by decide⟩
  · exact ⟨rfl, rfl, by decide, by decide⟩

/-- C9: geolocation decimal conversion. For every degrees/minutes/seconds
    triple the decimal value is sign * (deg + min/60 + sec/3600), the sign
    being -1 exactly when the reference compares case-insensitively equal to
    S or W and +1 otherwise (an absent reference included); a zero
    denominator evaluates to 0; and (45, 30, 0) yields 45.5 under N and
    -45.5 under S. -/
theorem c9_geo_to_decimal :
    (∀ (dms : ExifRational × ExifRational × ExifRational) (ref : String),
        geoToDecimal (some dms) (some ref) =
          (if ciEq ref "S" ∨ ciEq ref "W" then -1 else 1) *
            (evalFrac dms.1 + evalFrac dms.2.1 / 60 + evalFrac dms.2.2 / 3600)) ∧
    (∀ dms : ExifRational × ExifRational × ExifRational,
        geoToDecimal (some dms) none =
          evalFrac dms.1 + evalFrac dms.2.1 / 60 + evalFrac dms.2.2 / 3600) ∧
    (∀ n : Int, evalFrac (n, 0) = 0) ∧
    geoToDecimal (some ((45, 1), (30, 1), (0, 1))) (some "N") = 91 / 2 ∧
    geoToDecimal (some ((45, 1), (30, 1), (0, 1))) (some "S") = -(91 / 2) := by
  refine ⟨?_, ?_, ?_, ?_, ?_⟩
  · intro dms ref
    simp only [geoToDecimal, ciEq, show toUpperStr "S" = "S" from rfl,
      show toUpperStr "W" = "W" from rfl]
  · intro dms
    simp only [geoToDecimal]
    ring
  · intro n
    simp [evalFrac]
  · rw [show geoToDecimal (some ((45, 1), (30, 1), (0, 1))) (some "N") =
        1 * (evalFrac (45, 1) + evalFrac (30, 1) / 60 + evalFrac (0, 1) / 3600) from rfl]
    norm_num [evalFrac]
  · rw [show geoToDecimal (some ((45, 1), (30, 1), (0, 1))) (some "S") =
        (-1) * (evalFrac (45, 1) + evalFrac (30, 1) / 60 + evalFrac (0, 1) / 3600) from rfl]
    norm_num [evalFrac]

/-- C10 (code bug witness): the make-stripping loop of extractSensor never
    terminates when the make string is empty — find of the empty string
    always succeeds at position 0 and erase then removes zero characters —
    so with a present-but-empty Make tag the sensor-identity extraction
    diverges (none at every fuel) instead of terminating. -/
theorem c10_empty_make_diverges :
    (∀ (fuel : Nat) (hay : List Char), stripFuel fuel [] hay = none) ∧
    extractSensor exifEmptyMake = none := by
  constructor
  · intro fuel
    induction fuel with
    | zero => intro hay; rfl
    | succ n ih =>
      intro hay
      simp only [stripFuel, findSub_nil hay, eraseSub, List.length_nil,
        Nat.add_zero, List.take_zero, List.drop_zero, List.nil_append]
      exact ih hay
  · rfl

/-- C7 counterexample: with a resolution unit of 2 and an X-resolution of 1
    but no pixel-dimension tags, sensor-width extraction returns
    -1 * (1/1) * 25.4 = -25.4, not the 0 the claim promises for a missing
    image width. -/
theorem c7_counterexample :
    extractSensorWidth exifNoDims = -(127 / 5) ∧ extractSensorWidth exifNoDims ≠ 0 := by
  constructor <;> norm_num [extractSensorWidth, exifNoDims, extractImageSize, getMmPerUnit]

/-- C7 amended: sensor width is width-in-pixels * (1 / pixels-per-unit) *
    mm-per-unit with unit 2 mapped to 25.4 mm and unit 3 to 10.0 mm; a
    missing resolution-unit or X-resolution tag, or any other unit value,
    yields 0 without error; but a missing image dimension does not yield 0 —
    the (-1) sentinel of extractImageSize flows through the product
    (downstream code treats only positive widths as usable). -/
theorem c7_sensor_width (d : ExifData) :
    ((d.focalPlaneResolutionUnit = none ∨ d.focalPlaneXResolution = none) →
        extractSensorWidth d = 0) ∧
    (∀ u x, d.focalPlaneResolutionUnit = some u → d.focalPlaneXResolution = some x →
        u ≠ 2 → u ≠ 3 → extractSensorWidth d = 0) ∧
    (∀ x, d.focalPlaneResolutionUnit = some 2 → d.focalPlaneXResolution = some x →
        extractSensorWidth d = ((extractImageSize d).width : ℚ) * (1 / x) * (254 / 10)) ∧
    (∀ x, d.focalPlaneResolutionUnit = some 3 → d.focalPlaneXResolution = some x →
        extractSensorWidth d = ((extractImageSize d).width : ℚ) * (1 / x) * 10) ∧
    (∀ w h, d.pixelXDimension = some w → d.pixelYDimension = some h →
        (extractImageSize d).width = w) ∧
    ((d.pixelXDimension = none ∨ d.pixelYDimension = none) →
        (extractImageSize d).width = -1) := by
  refine ⟨?_, ?_, ?_, ?_, ?_, ?_⟩
  · rintro (h | h) <;> cases hu : d.focalPlaneResolutionUnit <;>
      cases hx : d.focalPlaneXResolution <;>
      simp_all [extractSensorWidth]
  · intro u x hu hx hu2 hu3
    have hmm : getMmPerUnit u = 0 := by simp [getMmPerUnit, hu2, hu3]
    simp [extractSensorWidth, hu, hx, hmm]
  · intro x hu hx
    have hmm : getMmPerUnit 2 = 254 / 10 := by norm_num [getMmPerUnit]
    simp only [extractSensorWidth, hu, hx, hmm]
    norm_num
  · intro x hu hx
    have hmm : getMmPerUnit 3 = 10 := by norm_num [getMmPerUnit]
    simp only [extractSensorWidth, hu, hx, hmm]
    norm_num
  · intro w h hw hh
    simp [extractImageSize, hw, hh]
  · rintro (h | h) <;> cases hw : d.pixelXDimension <;> cases hh : d.pixelYDimension <;>
      simp_all [extractImageSize]

/-- C7 witness: the amended characterization applied to concrete inputs —
    resolution tags (unit 2, 254 px/inch) with a 235-pixel-wide image give
    sensor width 235 * (1/254) * 25.4, and the no-dimension input takes the
    sentinel branch. -/
theorem c7_sensor_width_witness :
    extractSensorWidth exifRaw = ((extractImageSize exifRaw).width : ℚ) * (1 / 254) * (254 / 10) ∧
    (extractImageSize exifRaw).width = 235 ∧
    (extractImageSize exifNoDims).width = -1 := by
  refine ⟨?_, ?_, ?_⟩
  · exact (c7_sensor_width exifRaw).2.2.1 254 rfl rfl
  · exact (c7_sensor_width exifRaw).2.2.2.2.1 235 100 rfl rfl
  · exact (c7_sensor_width exifNoDims).2.2.2.2.2 (Or.inl rfl)

/-- C8: 35mm-equivalent focal length. A present and positive 35mm-film tag
    wins with ratio = f35/36; otherwise, with the sensor width taken from
    the resolution tags or, failing that, from the static make+model lookup
    table keyed by the normalized sensor identity, a positive sensor width
    and a present raw focal tag give ratio = focal/sensorWidth and
    f35 = 36*ratio; when neither path yields data both outputs are 0. The
    fallback branch is stated under the side condition that the sensor
    identity extraction terminates (see C10). -/
theorem c8_focal_35mm_computation (sensorData : String → Option ℚ) (d : ExifData) :
    (∀ v, d.focalLengthIn35mmFilm = some v → 0 < v →
        computeFocal sensorData d = some { f35 := v, ratio := v / 36 }) ∧
    (∀ sid, (∀ v, d.focalLengthIn35mmFilm = some v → ¬ 0 < v) →
        extractSensor d = some sid →
        ((∀ focal, d.focalLength = some focal →
             0 < effSensorWidth sensorData d sid →
             computeFocal sensorData d =
               some { f35 := 36 * (focal / effSensorWidth sensorData d sid),
                      ratio := focal / effSensorWidth sensorData d sid }) ∧
         (¬ (0 < effSensorWidth sensorData d sid ∧ d.focalLength.isSome = true) →
             computeFocal sensorData d = some { f35 := 0, ratio := 0 }))) := by
  constructor
  · intro v hv hpos
    simp [computeFocal, hv, hpos]
  · intro sid h35 hsid
    have hfb : computeFocal sensorData d = computeFocalFallback sensorData d := by
      cases hv : d.focalLengthIn35mmFilm with
      | none => simp [computeFocal, hv]
      | some v =>
        have hnp := h35 v hv
        simp [computeFocal, hv, hnp]
    constructor
    · intro focal hf hsw
      rw [hfb]
      rw [effSensorWidth] at hsw
      have hgt : (if extractSensorWidth d = 0 ∧ (sensorData sid).isSome = true
          then (sensorData sid).getD 0 else extractSensorWidth d) > 0 := hsw
      simp only [computeFocalFallback, hsid, Option.map_some', hf, effSensorWidth]
      rw [if_pos hgt]
    · intro hnot
      rw [hfb]
      rw [effSensorWidth] at hnot
      rcases hf : d.focalLength with _ | focal
      · simp [computeFocalFallback, hsid, hf]
      · have hneg : ¬ ((if extractSensorWidth d = 0 ∧ (sensorData sid).isSome = true
            then (sensorData sid).getD 0 else extractSensorWidth d) > 0) :=
          fun hpos => hnot ⟨hpos, by simp [hf]⟩
        simp only [computeFocalFallback, hsid, Option.map_some', hf]
        rw [if_neg hneg]

/-- C8 witness: a 35mm tag of 50 gives ratio 50/36; no 35mm tag with raw
    focal 24 and resolution-derived sensor width 23.5 gives ratio 48/47 and
    f35 = 1728/47 (about 36.77). -/
theorem c8_focal_35mm_witness :
    computeFocal noSensorData exif35 = some { f35 := 50, ratio := 50 / 36 } ∧
    computeFocal noSensorData exifRaw = some { f35 := 1728 / 47, ratio := 48 / 47 } := by
  constructor
  · exact (c8_focal_35mm_computation noSensorData exif35).1 50 rfl (by norm_num)
  · have hsid : extractSensor exifRaw = some "canon eos" := rfl
    have heff : effSensorWidth noSensorData exifRaw "canon eos" = 47 / 2 := by
      norm_num [effSensorWidth, noSensorData, extractSensorWidth, exifRaw,
        extractImageSize, getMmPerUnit]
    have h := ((c8_focal_35mm_computation noSensorData exifRaw).2 "canon eos"
        (fun v hv => absurd hv (by simp [exifRaw])) hsid).1 24 rfl
        (by rw [heff]; norm_num)
    rw [h, heff]
    norm_num [Focal.mk.injEq]

lemma parseEntry_path (node : FSTree) (p : RPath) (opts : ParseEntryOpts) :
    (parseEntry node p opts).path = p := rfl

lemma updatedRow_path (r e : Entry) : (updatedRow r e).path = r.path := rfl

lemma updatedRow_congr {rc rt : Entry} (e : Entry) (h : rc.path = rt.path) :
    updatedRow rc e = updatedRow rt e := by
  show Entry.mk rc.path e.hash e.type e.meta e.mtime e.size e.depth e.pointGeom e.polygonGeom =
    Entry.mk rt.path e.hash e.type e.meta e.mtime e.size e.depth e.pointGeom e.polygonGeom
  rw [h]

lemma rowAfterSync_path {fs : FSTree} {rt rc b : Entry}
    (h : rowAfterSync fs rt rc = some b) : b.path = rc.path := by
  unfold rowAfterSync at h
  split at h
  · split at h
    · cases h
      exact updatedRow_path ..
    · cases h
      rfl
  · cases h

lemma findRow_self_of_nodup {db : DB} (hN : (db.map Entry.path).Nodup) {r : Entry}
    (hr : r ∈ db) : findRow db r.path = some r := by
  induction db with
  | nil => cases hr
  | cons a rest ih =>
    rcases List.mem_cons.mp hr with h | h
    · subst h
      simp [findRow]
    · have hN' : ((a :: rest).map Entry.path).Nodup := hN
      rw [List.map_cons, List.nodup_cons] at hN'
      have hne : a.path ≠ r.path := by
        intro he
        exact hN'.1 (he ▸ List.mem_map_of_mem Entry.path h)
      unfold findRow
      rw [List.find?_cons_of_neg _ (by simp [hne])]
      exact ih hN'.2 h

lemma syncFold_characterization (fs : FSTree) :
    ∀ (todo : List Entry), (todo.map Entry.path).Nodup →
      ∀ (cur : DB) (out : List OutLine),
        List.foldl (syncStep fs) (cur, out) todo =
          (cur.filterMap (syncRowMap fs todo), out ++ todo.flatMap (syncLines fs)) := by
  intro todo
  induction todo with
  | nil =>
    intro _ cur out
    have h : syncRowMap fs ([] : List Entry) = some := by
      funext rc
      simp [syncRowMap]
    rw [h, List.filterMap_some]
    simp
  | cons rt rest ih =>
    intro hN cur out
    rw [List.map_cons, List.nodup_cons] at hN
    have hfr : ∀ rc : Entry, rc.path = rt.path →
        rest.find? (fun rt' => rt'.path = rc.path) = none := by
      intro rc hrc
      rw [List.find?_eq_none]
      intro x hx
      simp only [decide_eq_true_eq]
      intro hxe
      exact hN.1 (hrc ▸ hxe ▸ List.mem_map_of_mem Entry.path hx)
    rw [List.foldl_cons, ih hN.2]
    rcases hlook : lookupFS fs rt.path with _ | node
    · have hstep : syncStep fs (cur, out) rt =
          (dbDelete cur rt.path, out ++ [OutLine.D rt.path]) := by
        simp [syncStep, hlook]
      rw [hstep]
      have hlines : syncLines fs rt = [OutLine.D rt.path] := by simp [syncLines, hlook]
      refine Prod.ext ?_ ?_
      · show (dbDelete cur rt.path).filterMap (syncRowMap fs rest) =
          cur.filterMap (syncRowMap fs (rt :: rest))
        rw [dbDelete, List.filterMap_filter]
        apply List.filterMap_congr
        intro x _
        by_cases hx : x.path = rt.path
        · rw [if_neg (by simp [hx])]
          unfold syncRowMap
          rw [List.find?_cons_of_pos _ (by simp [hx])]
          simp [rowAfterSync, hlook]
        · rw [if_pos (by simp [hx])]
          unfold syncRowMap
          rw [List.find?_cons_of_neg _ (by simp only [decide_eq_true_eq]; exact fun h => hx h.symm)]
      · show (out ++ [OutLine.D rt.path]) ++ rest.flatMap (syncLines fs) =
          out ++ (rt :: rest).flatMap (syncLines fs)
        rw [List.flatMap_cons, hlines]
        simp
    · by_cases hch : (checkUpdate emptyEntry node rt.mtime rt.hash).1 = true
      · have hstep : syncStep fs (cur, out) rt =
            (dbUpdate cur (parseEntry node rt.path { withHash := true }),
             out ++ [OutLine.U rt.path]) := by
          simp [syncStep, hlook, hch, parseEntry_path]
        rw [hstep]
        have hlines : syncLines fs rt = [OutLine.U rt.path] := by
          simp [syncLines, hlook, hch]
        refine Prod.ext ?_ ?_
        · show (dbUpdate cur (parseEntry node rt.path { withHash := true })).filterMap
              (syncRowMap fs rest) = cur.filterMap (syncRowMap fs (rt :: rest))
          rw [dbUpdate, List.filterMap_map]
          apply List.filterMap_congr
          intro x _
          by_cases hx : x.path = rt.path
          · have h1 : syncRowMap fs (rt :: rest) x =
                some (updatedRow x (parseEntry node rt.path { withHash := true })) := by
              unfold syncRowMap
              rw [List.find?_cons_of_pos _ (by simp [hx])]
              simp [rowAfterSync, hlook, hch]
            rw [h1]
            simp only [Function.comp_apply]
            rw [if_pos (show x.path = (parseEntry node rt.path { withHash := true }).path by
              rw [parseEntry_path]; exact hx)]
            unfold syncRowMap
            rw [hfr _ (by rw [updatedRow_path]; exact hx)]
          · simp only [Function.comp_apply]
            rw [if_neg (by rw [parseEntry_path]; exact hx)]
            unfold syncRowMap
            rw [List.find?_cons_of_neg _ (by simp only [decide_eq_true_eq]; exact fun h => hx h.symm)]
        · show (out ++ [OutLine.U rt.path]) ++ rest.flatMap (syncLines fs) =
            out ++ (rt :: rest).flatMap (syncLines fs)
          rw [List.flatMap_cons, hlines]
          simp
      · have hch' : (checkUpdate emptyEntry node rt.mtime rt.hash).1 = false := by
          revert hch
          cases (checkUpdate emptyEntry node rt.mtime rt.hash).1 <;> simp
        have hstep : syncStep fs (cur, out) rt = (cur, out) := by
          simp [syncStep, hlook, hch']
        rw [hstep]
        have hlines : syncLines fs rt = [] := by simp [syncLines, hlook, hch']
        refine Prod.ext ?_ ?_
        · show cur.filterMap (syncRowMap fs rest) = cur.filterMap (syncRowMap fs (rt :: rest))
          apply List.filterMap_congr
          intro x _
          by_cases hx : x.path = rt.path
          · unfold syncRowMap
            rw [hfr x hx, List.find?_cons_of_pos _ (by simp [hx])]
            simp [rowAfterSync, hlook, hch']
          · unfold syncRowMap
            rw [List.find?_cons_of_neg _ (by simp only [decide_eq_true_eq]; exact fun h => hx h.symm)]
        · show out ++ rest.flatMap (syncLines fs) = out ++ (rt :: rest).flatMap (syncLines fs)
          rw [List.flatMap_cons, hlines]
          simp

lemma syncIndex_characterization (fs : FSTree) (db : DB)
    (hN : (db.map Entry.path).Nodup) :
    syncIndex fs db = (db.filterMap (syncOutcome fs), db.flatMap (syncLines fs)) := by
  unfold syncIndex
  rw [show db.foldl (syncStep fs) (db, []) = List.foldl (syncStep fs) (db, []) db from rfl]
  rw [syncFold_characterization fs db hN db []]
  refine Prod.ext ?_ ?_
  · apply List.filterMap_congr
    intro rc hrc
    have hfind := findRow_self_of_nodup hN hrc
    unfold findRow at hfind
    unfold syncRowMap
    rw [hfind]
    rfl
  · simp

lemma syncLines_path {fs : FSTree} {rt : Entry} :
    ∀ l ∈ syncLines fs rt, OutLine.path l = rt.path := by
  intro l hl
  unfold syncLines at hl
  split at hl
  · split at hl
    · rcases List.mem_singleton.mp hl with rfl
      rfl
    · cases hl
  · rcases List.mem_singleton.mp hl with rfl
    rfl

lemma findRow_filterMap {g : Entry → Option Entry}
    (hg : ∀ x y, g x = some y → y.path = x.path) :
    ∀ (db : DB) (p : RPath), (db.map Entry.path).Nodup →
      ∀ r, findRow db p = some r → findRow (db.filterMap g) p = g r := by
  intro db
  induction db with
  | nil =>
    intro p _ r h
    exact absurd h (by simp [findRow])
  | cons a rest ih =>
    intro p hN r h
    rw [List.map_cons, List.nodup_cons] at hN
    unfold findRow at h
    by_cases hap : a.path = p
    · rw [List.find?_cons_of_pos _ (by simp [hap])] at h
      cases h
      rw [List.filterMap_cons]
      cases hga : g a with
      | none =>
        have hnone : ∀ y ∈ rest.filterMap g, y.path ≠ p := by
          intro y hy hyp
          obtain ⟨x, hx, hgx⟩ := List.mem_filterMap.mp hy
          have hxy := hg x y hgx
          apply hN.1
          have hax : a.path = x.path := by rw [hap, ← hyp]; exact hxy
          rw [hax]
          exact List.mem_map_of_mem Entry.path hx
        unfold findRow
        rw [List.find?_eq_none.mpr
          (fun y hy => by simp only [decide_eq_true_eq]; exact hnone y hy)]
      | some b =>
        have hbp : b.path = p := by rw [hg a b hga, hap]
        unfold findRow
        rw [List.find?_cons_of_pos _ (by simp [hbp])]
    · rw [List.find?_cons_of_neg _ (by simp [hap])] at h
      rw [List.filterMap_cons]
      cases hga : g a with
      | none => exact ih p hN.2 r h
      | some b =>
        have hbp : ¬ b.path = p := by rw [hg a b hga]; exact hap
        unfold findRow
        rw [List.find?_cons_of_neg _ (by simp [hbp])]
        exact ih p hN.2 r h

lemma findRow_dbUpdate_ne (db : DB) (e : Entry) (q : RPath) (h : e.path ≠ q) :
    findRow (dbUpdate db e) q = findRow db q := by
  induction db with
  | nil => rfl
  | cons a rest ih =>
    unfold dbUpdate at ih ⊢
    rw [List.map_cons]
    by_cases hap : a.path = q
    · have hne : a.path ≠ e.path := by rw [hap]; exact fun he => h he.symm
      unfold findRow
      rw [if_neg hne, List.find?_cons_of_pos _ (by simp [hap]),
        List.find?_cons_of_pos _ (by simp [hap])]
    · unfold findRow
      by_cases hae : a.path = e.path
      · rw [if_pos hae, List.find?_cons_of_neg _ (by simp [updatedRow_path, hap]),
          List.find?_cons_of_neg _ (by simp [hap])]
        exact ih
      · rw [if_neg hae, List.find?_cons_of_neg _ (by simp [hap]),
          List.find?_cons_of_neg _ (by simp [hap])]
        exact ih

lemma findRow_dbInsert_of_found (db : DB) (e : Entry) (q : RPath) (r : Entry)
    (h : findRow db q = some r) : findRow (dbInsert db e) q = some r := by
  unfold findRow at h
  unfold findRow dbInsert
  rw [List.find?_append, h]
  rfl

lemma foldlM_except_invariant {σ α : Type} (step : σ → α → Except DdbError σ)
    (P : σ → Prop) :
    ∀ (l : List α) (st st2 : σ),
      (∀ s x s2, x ∈ l → P s → step s x = .ok s2 → P s2) →
      P st → l.foldlM step st = .ok st2 → P st2 := by
  intro l
  induction l with
  | nil =>
    intro st st2 _ hP h
    rw [List.foldlM_nil] at h
    cases h
    exact hP
  | cons x xs ih =>
    intro st st2 hstep hP h
    rw [List.foldlM_cons] at h
    cases hs : step st x with
    | error e =>
      rw [hs] at h
      simp only [bind, Except.bind] at h
      cases h
    | ok s1 =>
      rw [hs] at h
      simp only [bind, Except.bind] at h
      exact ih s1 st2 (fun s x' s2 hx => hstep s x' s2 (List.mem_cons_of_mem _ hx))
        (hstep st x s1 (List.mem_cons_self x xs) hP hs) h

/-- C1: for a tracked file whose live modification time differs from the
    stored one while its recomputed content hash equals the stored hash, the
    change detector reports no change, sync and add emit no output line for
    that entry, and the stored row (its old modification time included) is
    left exactly as it was. -/
theorem c1_touched_file_keeps_row
    (fs : FSTree) (db : DB) (r : Entry) (nm : String) (m : Int) (c : String)
    (hNodup : (db.map Entry.path).Nodup)
    (hrow : findRow db r.path = some r)
    (hfs : lookupFS fs r.path = some (FSTree.file nm m c))
    (hm : m ≠ r.mtime)
    (hh : fileSHA256 c = r.hash) :
    (checkUpdate emptyEntry (FSTree.file nm m c) r.mtime r.hash).1 = false ∧
    findRow (syncIndex fs db).1 r.path = some r ∧
    (∀ l ∈ (syncIndex fs db).2, OutLine.path l ≠ r.path) ∧
    (∀ (paths : List RPath) (res : DB × List OutLine),
        addToIndex fs db paths = Except.ok res →
        findRow res.1 r.path = some r ∧ ∀ l ∈ res.2, OutLine.path l ≠ r.path) := by
  have hcu : (checkUpdate emptyEntry (FSTree.file nm m c) r.mtime r.hash).1 = false := by
    simp [checkUpdate, getModifiedTime, FSTree.mtime, FSTree.isDir, hashFile, hm, hh]
  have hr_mem : r ∈ db := List.mem_of_find?_eq_some hrow
  have hout : syncOutcome fs r = some r := by
    simp [syncOutcome, rowAfterSync, hfs, hcu]
  have hlines0 : syncLines fs r = [] := by
    simp [syncLines, hfs, hcu]
  have hchar := syncIndex_characterization fs db hNodup
  refine ⟨hcu, ?_, ?_, ?_⟩
  · rw [hchar]
    have hfm := findRow_filterMap (g := syncOutcome fs)
      (fun x y hxy => rowAfterSync_path hxy) db r.path hNodup r hrow
    rw [hfm, hout]
  · rw [hchar]
    intro l hl
    simp only [List.mem_flatMap] at hl
    obtain ⟨rt, hrt, hlrt⟩ := hl
    rw [syncLines_path l hlrt]
    intro he
    have hrtr : rt = r := List.inj_on_of_nodup_map hNodup hrt hr_mem he
    rw [hrtr, hlines0] at hlrt
    cases hlrt
  · intro paths res hok
    unfold addToIndex at hok
    cases hgp : getIndexPathList fs paths true with
    | error e =>
      rw [hgp] at hok
      simp only [bind, Except.bind] at hok
      cases hok
    | ok pathList =>
      rw [hgp] at hok
      simp only [bind, Except.bind] at hok
      have hstep : ∀ (st : DB × List OutLine) (p : RPath) (st2 : DB × List OutLine),
          p ∈ pathList →
          (findRow st.1 r.path = some r ∧ ∀ l ∈ st.2, OutLine.path l ≠ r.path) →
          addStep fs st p = .ok st2 →
          (findRow st2.1 r.path = some r ∧ ∀ l ∈ st2.2, OutLine.path l ≠ r.path) := by
        intro st p st2 _ hP hok2
        cases hlook : lookupFS fs p with
        | none =>
          have hsv : addStep fs st p = Except.error (DdbError.fsError "cannot stat path") := by
            simp [addStep, hlook]
          rw [hsv] at hok2
          cases hok2
        | some node =>
          by_cases hp : p = r.path
          · subst hp
            rw [hfs] at hlook
            injection hlook with hnode
            subst hnode
            have hsv : addStep fs st r.path = Except.ok st := by
              simp [addStep, hfs, hP.1, hcu]
            rw [hsv] at hok2
            cases hok2
            exact hP
          · cases hfind : findRow st.1 p with
            | some rr =>
              by_cases hch : (checkUpdate emptyEntry node rr.mtime rr.hash).1 = true
              · have hsv : addStep fs st p = Except.ok
                    (dbUpdate st.1 (parseEntry node p { withHash := true }),
                     st.2 ++ [OutLine.U p]) := by
                  simp [addStep, hlook, hfind, hch, parseEntry_path]
                rw [hsv] at hok2
                cases hok2
                constructor
                · rw [findRow_dbUpdate_ne _ _ _ (by rw [parseEntry_path]; exact hp)]
                  exact hP.1
                · intro l hl
                  rcases List.mem_append.mp hl with h | h
                  · exact hP.2 l h
                  · rcases List.mem_singleton.mp h with rfl
                    exact hp
              · have hch' : (checkUpdate emptyEntry node rr.mtime rr.hash).1 = false := by
                  revert hch
                  cases (checkUpdate emptyEntry node rr.mtime rr.hash).1 <;> simp
                have hsv : addStep fs st p = Except.ok st := by
                  simp [addStep, hlook, hfind, hch']
                rw [hsv] at hok2
                cases hok2
                exact hP
            | none =>
              have hsv : addStep fs st p = Except.ok
                  (dbInsert st.1 (parseEntry node p { withHash := true }),
                   st.2 ++ [OutLine.A p]) := by
                simp [addStep, hlook, hfind, parseEntry_path]
              rw [hsv] at hok2
              cases hok2
              constructor
              · exact findRow_dbInsert_of_found _ _ _ _ hP.1
              · intro l hl
                rcases List.mem_append.mp hl with h | h
                · exact hP.2 l h
                · rcases List.mem_singleton.mp h with rfl
                  exact hp
      exact foldlM_except_invariant (addStep fs)
        (fun st => findRow st.1 r.path = some r ∧ ∀ l ∈ st.2, OutLine.path l ≠ r.path)
        pathList (db, []) res hstep ⟨hrow, by simp⟩ hok

lemma checkUpdate_same_mtime (e : Entry) (node : FSTree) (dbHash : String) :
    (checkUpdate e node (getModifiedTime node) dbHash).1 = false := by
  simp [checkUpdate]

lemma map_path_filterMap_sublist {g : Entry → Option Entry}
    (hg : ∀ x y, g x = some y → y.path = x.path) :
    ∀ db : DB, List.Sublist ((db.filterMap g).map Entry.path) (db.map Entry.path) := by
  intro db
  induction db with
  | nil => simp
  | cons a rest ih =>
    rw [List.filterMap_cons, List.map_cons]
    cases hga : g a with
    | none => exact ih.cons a.path
    | some b =>
      rw [List.map_cons, hg a b hga]
      exact ih.cons₂ a.path

lemma syncOutcome_stable {fs : FSTree} {db : DB} :
    ∀ r1 ∈ db.filterMap (syncOutcome fs), StableRow fs r1 := by
  intro r1 h1
  obtain ⟨rt, _, hout⟩ := List.mem_filterMap.mp h1
  unfold syncOutcome rowAfterSync at hout
  split at hout
  case h_1 node hlook =>
    split at hout
    case isTrue hch =>
      cases hout
      refine ⟨node, ?_, ?_⟩
      · rw [show (updatedRow rt (parseEntry node rt.path { withHash := true })).path = rt.path
          from rfl]
        exact hlook
      · rw [show (updatedRow rt (parseEntry node rt.path { withHash := true })).mtime =
          getModifiedTime node from rfl]
        exact checkUpdate_same_mtime ..
    case isFalse hch =>
      cases hout
      exact ⟨node, hlook, by simpa using hch⟩
  case h_2 => cases hout

lemma stable_sync_noop {fs : FSTree} {db1 : DB}
    (hN : (db1.map Entry.path).Nodup)
    (hstable : ∀ r1 ∈ db1, StableRow fs r1) :
    syncIndex fs db1 = (db1, []) := by
  rw [syncIndex_characterization fs db1 hN]
  refine Prod.ext ?_ ?_
  · show db1.filterMap (syncOutcome fs) = db1
    have hcong : ∀ rc ∈ db1, syncOutcome fs rc = some rc := by
      intro rc hrc
      obtain ⟨node, hlook, hch⟩ := hstable rc hrc
      simp [syncOutcome, rowAfterSync, hlook, hch]
    rw [List.filterMap_congr hcong]
    exact List.filterMap_some db1
  · show db1.flatMap (syncLines fs) = []
    rw [List.flatMap_eq_nil_iff]
    intro rc hrc
    obtain ⟨node, hlook, hch⟩ := hstable rc hrc
    simp [syncLines, hlook, hch]

/-- C2: sync is idempotent. Whatever the index and the (frozen) filesystem,
    a second sync right after a first one produces no output line and
    performs no insert, update or delete: its result is the first run's
    table, untouched. -/
theorem c2_sync_idempotent (fs : FSTree) (db : DB)
    (hNodup : (db.map Entry.path).Nodup) :
    syncIndex fs (syncIndex fs db).1 = ((syncIndex fs db).1, []) := by
  have hchar := syncIndex_characterization fs db hNodup
  have hdb1 : (syncIndex fs db).1 = db.filterMap (syncOutcome fs) := by rw [hchar]
  have hN1 : (((syncIndex fs db).1).map Entry.path).Nodup := by
    rw [hdb1]
    exact ((map_path_filterMap_sublist
      (fun x y hxy => rowAfterSync_path hxy) db).nodup hNodup)
  apply stable_sync_noop hN1
  rw [hdb1]
  exact syncOutcome_stable

/-- C2 witness: on the touched demo root (a.txt touched without content
    change, b.txt in sync) the second sync after a first one reports
    nothing and leaves the table as the first run produced it. -/
theorem c2_sync_idempotent_witness :
    syncIndex touchedFS (syncIndex touchedFS touchedDB).1 =
      ((syncIndex touchedFS touchedDB).1, []) :=
  c2_sync_idempotent touchedFS touchedDB (by decide)

/-- C1 witness: a.txt was touched (live mtime 2, stored mtime 1) with
    unchanged content; the detector reports no change, the row survives a
    sync pass untouched (old mtime 1 kept), and an add over the file leaves
    the table exactly as it was. -/
theorem c1_touched_file_keeps_row_witness :
    (checkUpdate emptyEntry (FSTree.file "a.txt" 2 "same") rowA.mtime rowA.hash).1 = false ∧
    findRow (syncIndex touchedFS touchedDB).1 rowA.path = some rowA ∧
    findRow (touchedDB, ([] : List OutLine)).1 rowA.path = some rowA := by
  have h := c1_touched_file_keeps_row touchedFS touchedDB rowA "a.txt" 2 "same"
    (by decide) rfl rfl (by decide) rfl
  exact ⟨h.1, h.2.1, (h.2.2.2 [["a.txt"]] (touchedDB, []) rfl).1⟩

lemma mutsOnly_nil : MutsOnly [] :=
  fun op hop => absurd hop (List.not_mem_nil op)

lemma mutsOnly_singleton (m : Mut) : MutsOnly [DbOp.mut m] := by
  intro op hop
  rcases List.mem_singleton.mp hop with rfl
  exact ⟨m, rfl⟩

lemma runTrace_no_commit (db : DB) :
    ∀ (ops : List DbOp), MutsOnly ops → ∀ pending, runTrace db (some pending) ops = db := by
  intro ops
  induction ops with
  | nil => intro _ pending; rfl
  | cons op rest ih =>
    intro h pending
    obtain ⟨m, rfl⟩ := h op (List.mem_cons_self op rest)
    show runTrace db (some (applyMut pending m)) rest = db
    exact ih (fun op' hop' => h op' (List.mem_cons_of_mem _ hop')) _

lemma runTrace_rollback (db : DB) {tl : List DbOp} (h : MutsOnly tl) :
    runTrace db none (DbOp.begin :: tl) = db := by
  show runTrace db (some db) tl = db
  exact runTrace_no_commit db tl h db

lemma foldlM_trace_error {α : Type} (step : TxState → α → Except (DdbError × List DbOp) TxState)
    (hok : ∀ st x st2, step st x = .ok st2 → ∃ add, MutsOnly add ∧ st2.trace = st.trace ++ add)
    (herr : ∀ st x e tr, step st x = .error (e, tr) → tr = st.trace) :
    ∀ (l : List α) (st : TxState) (e : DdbError) (tr : List DbOp),
      l.foldlM step st = .error (e, tr) →
      ∃ add, MutsOnly add ∧ tr = st.trace ++ add := by
  intro l
  induction l with
  | nil =>
    intro st e tr h
    rw [List.foldlM_nil] at h
    cases h
  | cons x xs ih =>
    intro st e tr h
    rw [List.foldlM_cons] at h
    cases hs : step st x with
    | error pair =>
      rw [hs] at h
      simp only [bind, Except.bind] at h
      cases h
      exact ⟨[], mutsOnly_nil, by rw [herr st x _ _ hs, List.append_nil]⟩
    | ok st1 =>
      rw [hs] at h
      simp only [bind, Except.bind] at h
      obtain ⟨add1, hm1, htr1⟩ := hok st x st1 hs
      obtain ⟨add2, hm2, htr2⟩ := ih st1 e tr h
      refine ⟨add1 ++ add2, ?_, ?_⟩
      · intro op hop
        rcases List.mem_append.mp hop with h' | h'
        exacts [hm1 op h', hm2 op h']
      · rw [htr2, htr1, List.append_assoc]

lemma addStepT_ok_shape (o : FailOracle) (fs : FSTree) :
    ∀ st p st2, addStepT o fs st p = .ok st2 →
      ∃ add, MutsOnly add ∧ st2.trace = st.trace ++ add := by
  intro st p st2 h
  unfold addStepT at h
  split at h
  · cases h
  · simp only [] at h
    split at h
    · split at h
      · cases h
      · split at h
        · split at h
          · cases h
          · split at h
            · cases h
            · cases h
              exact ⟨[DbOp.mut (Mut.upd _)], mutsOnly_singleton _, rfl⟩
        · cases h
          exact ⟨[], mutsOnly_nil, (List.append_nil _).symm⟩
    · split at h
      · cases h
      · split at h
        · cases h
        · cases h
          exact ⟨[DbOp.mut (Mut.ins _)], mutsOnly_singleton _, rfl⟩

lemma addStepT_error_shape (o : FailOracle) (fs : FSTree) :
    ∀ st p e tr, addStepT o fs st p = .error (e, tr) → tr = st.trace := by
  intro st p e tr h
  unfold addStepT at h
  split at h
  · cases h
    rfl
  · simp only [] at h
    split at h
    · split at h
      · cases h
        rfl
      · split at h
        · split at h
          · cases h
            rfl
          · split at h
            · cases h
              rfl
            · cases h
        · cases h
    · split at h
      · cases h
        rfl
      · split at h
        · cases h
          rfl
        · cases h

lemma removeStepT_ok_shape (o : FailOracle) :
    ∀ st p st2, removeStepT o st p = .ok st2 →
      ∃ add, MutsOnly add ∧ st2.trace = st.trace ++ add := by
  intro st p st2 h
  unfold removeStepT at h
  simp only [] at h
  split at h
  · cases h
  · cases h
    refine ⟨[DbOp.mut (Mut.del p)], mutsOnly_singleton _, ?_⟩
    split <;> rfl

lemma removeStepT_error_shape (o : FailOracle) :
    ∀ st p e tr, removeStepT o st p = .error (e, tr) → tr = st.trace := by
  intro st p e tr h
  unfold removeStepT at h
  simp only [] at h
  split at h
  · cases h
    rfl
  · cases h

lemma syncStepT_ok_shape (o : FailOracle) (fs : FSTree) :
    ∀ st r st2, syncStepT o fs st r = .ok st2 →
      ∃ add, MutsOnly add ∧ st2.trace = st.trace ++ add := by
  intro st r st2 h
  unfold syncStepT at h
  split at h
  · split at h
    · cases h
    · split at h
      · split at h
        · cases h
        · split at h
          · cases h
          · cases h
            exact ⟨[DbOp.mut (Mut.upd _)], mutsOnly_singleton _, rfl⟩
      · cases h
        exact ⟨[], mutsOnly_nil, (List.append_nil _).symm⟩
  · split at h
    · cases h
    · cases h
      exact ⟨[DbOp.mut (Mut.del _)], mutsOnly_singleton _, rfl⟩

lemma syncStepT_error_shape (o : FailOracle) (fs : FSTree) :
    ∀ st r e tr, syncStepT o fs st r = .error (e, tr) → tr = st.trace := by
  intro st r e tr h
  unfold syncStepT at h
  split at h
  · split at h
    · cases h
      rfl
    · split at h
      · split at h
        · cases h
          rfl
        · split at h
          · cases h
            rfl
          · cases h
      · cases h
  · split at h
    · cases h
      rfl
    · cases h

/-- C3: add, remove and sync are atomic. Whatever fails at runtime — path
    resolution (containment or a missing candidate), reading the filesystem
    (hashing or classifying a file), or executing a storage statement — the
    call returns the error and the durable table is exactly what it was
    before the call: every statement of the call sits inside the one
    transaction whose COMMIT is never reached, so the engine discards them. -/
theorem c3_atomic_rollback (o : FailOracle) (fs : FSTree) (db : DB) (paths : List RPath) :
    (∀ err, (addToIndexT o fs db paths).2 = .error err →
        runTrace db none (addToIndexT o fs db paths).1 = db) ∧
    (∀ err, (removeFromIndexT o fs db paths).2 = .error err →
        runTrace db none (removeFromIndexT o fs db paths).1 = db) ∧
    (∀ err, (syncIndexT o fs db).2 = .error err →
        runTrace db none (syncIndexT o fs db).1 = db) := by
  refine ⟨?_, ?_, ?_⟩
  · intro err herr
    unfold addToIndexT at herr ⊢
    cases hgp : getIndexPathList fs paths true with
    | error e0 => rfl
    | ok pathList =>
      rw [hgp] at herr
      simp only [] at herr ⊢
      cases hf : pathList.foldlM (addStepT o fs)
          { pending := db, trace := [DbOp.begin], out := [] } with
      | ok st =>
        rw [hf] at herr
        simp at herr
      | error pair =>
        obtain ⟨e1, tr1⟩ := pair
        obtain ⟨add, hmuts, htr⟩ := foldlM_trace_error (addStepT o fs)
          (addStepT_ok_shape o fs) (addStepT_error_shape o fs) pathList _ e1 tr1 hf
        show runTrace db none tr1 = db
        rw [htr]
        exact runTrace_rollback db hmuts
  · intro err herr
    unfold removeFromIndexT at herr ⊢
    cases hgp : getIndexPathList fs paths false with
    | error e0 => rfl
    | ok pathList =>
      rw [hgp] at herr
      simp only [] at herr ⊢
      cases hf : pathList.foldlM (removeStepT o)
          { pending := db, trace := [DbOp.begin], out := [] } with
      | ok st =>
        rw [hf] at herr
        simp at herr
      | error pair =>
        obtain ⟨e1, tr1⟩ := pair
        obtain ⟨add, hmuts, htr⟩ := foldlM_trace_error (removeStepT o)
          (removeStepT_ok_shape o) (removeStepT_error_shape o) pathList _ e1 tr1 hf
        show runTrace db none tr1 = db
        rw [htr]
        exact runTrace_rollback db hmuts
  · intro err herr
    unfold syncIndexT at herr ⊢
    cases hf : db.foldlM (syncStepT o fs)
        { pending := db, trace := [DbOp.begin], out := [] } with
    | ok st =>
      rw [hf] at herr
      simp at herr
    | error pair =>
      obtain ⟨e1, tr1⟩ := pair
      obtain ⟨add, hmuts, htr⟩ := foldlM_trace_error (syncStepT o fs)
        (syncStepT_ok_shape o fs) (syncStepT_error_shape o fs) db _ e1 tr1 hf
      show runTrace db none tr1 = db
      rw [htr]
      exact runTrace_rollback db hmuts

/-- C3 witness: with every storage statement failing, add and remove abort
    on a missing candidate while sync aborts on its first DELETE; in each
    case the call reports the error and replaying the trace against the
    engine leaves the stored table exactly [rowGone]. -/
theorem c3_atomic_rollback_witness :
    (addToIndexT allExecFail demoFS [rowGone] [["nope"]]).2 =
      Except.error (DdbError.fsError "Path does not exist") ∧
    runTrace [rowGone] none (addToIndexT allExecFail demoFS [rowGone] [["nope"]]).1 = [rowGone] ∧
    (removeFromIndexT allExecFail demoFS [rowGone] [["nope"]]).2 =
      Except.error (DdbError.fsError "Path does not exist") ∧
    runTrace [rowGone] none (removeFromIndexT allExecFail demoFS [rowGone] [["nope"]]).1 = [rowGone] ∧
    (syncIndexT allExecFail demoFS [rowGone]).2 =
      Except.error (DdbError.dbError "statement failed") ∧
    runTrace [rowGone] none (syncIndexT allExecFail demoFS [rowGone]).1 = [rowGone] := by
  refine ⟨rfl, ?_, rfl, ?_, rfl, ?_⟩
  · exact (c3_atomic_rollback allExecFail demoFS [rowGone] [["nope"]]).1 _ rfl
  · exact (c3_atomic_rollback allExecFail demoFS [rowGone] [["nope"]]).2.1 _ rfl
  · exact (c3_atomic_rollback allExecFail demoFS [rowGone] [["nope"]]).2.2 _ rfl

lemma lookupFS_append (p q : RPath) :
    ∀ t : FSTree, lookupFS t (p ++ q) = (lookupFS t p).bind (fun u => lookupFS u q) := by
  induction p with
  | nil => intro t; rfl
  | cons seg rest ih =>
    intro t
    rw [List.cons_append]
    cases t with
    | file n m c => rfl
    | dir n m cs =>
      simp only [lookupFS]
      cases hfn : cs.findName seg with
      | some c => exact ih c
      | none => rfl

lemma lookupFS_take {t : FSTree} {p : RPath} {u : FSTree}
    (h : lookupFS t p = some u) (k : Nat) : ∃ v, lookupFS t (p.take k) = some v := by
  have happ := lookupFS_append (p.take k) (p.drop k) t
  rw [List.take_append_drop] at happ
  rw [h] at happ
  cases hk : lookupFS t (p.take k) with
  | none => rw [hk] at happ; cases happ
  | some v => exact ⟨v, rfl⟩

lemma wf_name_of_tree {t : FSTree} (h : t.wf = true) : wfNameB t.name = true := by
  cases t with
  | file n m c => exact h
  | dir n m cs =>
    have h' := h
    unfold FSTree.wf at h'
    simp only [Bool.and_eq_true] at h'
    exact h'.1

lemma forest_wf_parts {t : FSTree} {rest : FSForest}
    (h : (FSForest.cons t rest).wf = true) :
    t.wf = true ∧ rest.wf = true ∧ t.name ∉ rest.names := by
  unfold FSForest.wf at h
  simp only [Bool.and_eq_true] at h
  refine ⟨h.1.1, h.1.2, ?_⟩
  simpa using h.2

lemma dir_wf_children {n : String} {m : Int} {cs : FSForest}
    (h : (FSTree.dir n m cs).wf = true) : cs.wf = true := by
  unfold FSTree.wf at h
  simp only [Bool.and_eq_true] at h
  exact h.2

lemma findName_wf : ∀ (cs : FSForest) (n : String) (c : FSTree),
    cs.wf = true → cs.findName n = some c → c.wf = true ∧ c.name = n
  | .nil, n, c, _, h => by cases h
  | .cons t rest, n, c, hwf, h => by
    obtain ⟨hwt, hwr, _⟩ := forest_wf_parts hwf
    unfold FSForest.findName at h
    by_cases he : t.name = n
    · rw [if_pos he] at h
      cases h
      exact ⟨hwt, he⟩
    · rw [if_neg he] at h
      exact findName_wf rest n c hwr h

lemma findName_mem_names : ∀ (cs : FSForest) (n : String) (c : FSTree),
    cs.findName n = some c → n ∈ cs.names
  | .nil, n, c, h => by cases h
  | .cons t rest, n, c, h => by
    unfold FSForest.findName at h
    unfold FSForest.names
    by_cases he : t.name = n
    · rw [he]
      exact List.mem_cons_self n rest.names
    · rw [if_neg he] at h
      exact List.mem_cons_of_mem _ (findName_mem_names rest n c h)

lemma lookupFS_wf :
    ∀ (p : RPath) (t : FSTree) (u : FSTree), t.wf = true → lookupFS t p = some u →
      u.wf = true ∧ ∀ seg ∈ p, wfNameB seg = true := by
  intro p
  induction p with
  | nil =>
    intro t u hwf h
    cases h
    exact ⟨hwf, by simp⟩
  | cons seg rest ih =>
    intro t u hwf h
    cases t with
    | file n m c => cases h
    | dir n m cs =>
      have hcs := dir_wf_children hwf
      simp only [lookupFS] at h
      revert h
      cases hfn : cs.findName seg with
      | none => intro h; cases h
      | some c =>
        intro h
        obtain ⟨hcwf, hcname⟩ := findName_wf cs seg c hcs hfn
        obtain ⟨huwf, hrest⟩ := ih c u hcwf h
        refine ⟨huwf, ?_⟩
        intro s hs
        rcases List.mem_cons.mp hs with rfl | hs'
        · rw [← hcname]
          exact wf_name_of_tree hcwf
        · exact hrest s hs'

lemma lookupFS_dir_ne_nil {n : String} {m : Int} {cs : FSForest} {s : RPath}
    (h : s ≠ []) : lookupFS (FSTree.dir n m cs) s = lookupForest cs s := by
  cases s with
  | nil => exact absurd rfl h
  | cons seg rest => rfl

mutual
lemma visitEntry_resolves : ∀ (prune : String → Nat → Bool) (t : FSTree) (rp : RPath)
    (d : Nat), t.wf = true → ∀ q nd, (q, nd) ∈ visitEntry prune t rp d →
      ∃ s, q = rp ++ s ∧ s ≠ [] ∧ lookupFS t s = some nd ∧ ∀ seg ∈ s, wfNameB seg = true
  | prune, .file n m c, rp, d, hwf, q, nd, hmem => by
    simp [visitEntry] at hmem
  | prune, .dir n m cs, rp, d, hwf, q, nd, hmem => by
    unfold visitEntry at hmem
    by_cases hpr : prune n d = true
    · rw [if_pos hpr] at hmem
      cases hmem
    · rw [if_neg hpr] at hmem
      obtain ⟨s, hq, hne, hlk, hwfs⟩ :=
        visitForest_resolves prune cs rp (d + 1) (dir_wf_children hwf) q nd hmem
      exact ⟨s, hq, hne, by rw [lookupFS_dir_ne_nil hne]; exact hlk, hwfs⟩

lemma visitForest_resolves : ∀ (prune : String → Nat → Bool) (cs : FSForest) (base : RPath)
    (d : Nat), cs.wf = true → ∀ q nd, (q, nd) ∈ visitForest prune cs base d →
      ∃ s, q = base ++ s ∧ s ≠ [] ∧ lookupForest cs s = some nd ∧ ∀ seg ∈ s, wfNameB seg = true
  | prune, .nil, base, d, hwf, q, nd, hmem => by
    simp [visitForest] at hmem
  | prune, .cons t rest, base, d, hwf, q, nd, hmem => by
    obtain ⟨hwt, hwr, hnotin⟩ := forest_wf_parts hwf
    unfold visitForest at hmem
    rcases List.mem_cons.mp hmem with heq | hmem2
    · cases heq
      refine ⟨[t.name], rfl, by simp, ?_, ?_⟩
      · simp [lookupForest, FSForest.findName, lookupFS]
      · intro seg hseg
        rcases List.mem_singleton.mp hseg with rfl
        exact wf_name_of_tree hwt
    · rcases List.mem_append.mp hmem2 with hm | hm
      · obtain ⟨s, hq, hne, hlk, hwfs⟩ :=
          visitEntry_resolves prune t (base ++ [t.name]) d hwt q nd hm
        refine ⟨t.name :: s, by rw [hq, List.append_assoc]; rfl, by simp, ?_, ?_⟩
        · simp only [lookupForest, FSForest.findName, if_pos rfl]
          exact hlk
        · intro seg hseg
          rcases List.mem_cons.mp hseg with rfl | hsg
          · exact wf_name_of_tree hwt
          · exact hwfs seg hsg
      · obtain ⟨s, hq, hne, hlk, hwfs⟩ :=
          visitForest_resolves prune rest base d hwr q nd hm
        refine ⟨s, hq, hne, ?_, hwfs⟩
        cases s with
        | nil => exact absurd rfl hne
        | cons seg s' =>
          unfold lookupForest at hlk ⊢
          simp only [] at hlk ⊢
          cases hfn : rest.findName seg with
          | none =>
            rw [hfn] at hlk
            cases hlk
          | some c =>
            rw [hfn] at hlk
            have hne2 : t.name ≠ seg := by
              intro he
              exact hnotin (he ▸ findName_mem_names rest seg c hfn)
            unfold FSForest.findName
            rw [if_neg hne2, hfn]
            exact hlk
end

lemma goodEntryPath_take {fs : FSTree} {p : RPath} (h : goodEntryPath fs p) (k : Nat) :
    goodEntryPath fs (p.take k) := by
  obtain ⟨⟨u, hu⟩, hsegs⟩ := h
  obtain ⟨v, hv⟩ := lookupFS_take hu k
  exact ⟨⟨v, hv⟩, fun seg hs => hsegs seg (List.take_subset k p hs)⟩

lemma goodEntryPath_parents {fs : FSTree} {p : RPath} (h : goodEntryPath fs p) :
    ∀ a ∈ parentPaths p, goodEntryPath fs a := by
  intro a ha
  unfold parentPaths at ha
  obtain ⟨k, _, hk⟩ := List.mem_map.mp ha
  exact hk ▸ goodEntryPath_take h (k + 1)

lemma mem_insertPathSet {l : List RPath} {p x : RPath} (h : x ∈ insertPathSet l p) :
    x ∈ l ∨ x = p := by
  unfold insertPathSet at h
  by_cases hp : p ∈ l
  · rw [if_pos hp] at h
    exact Or.inl h
  · rw [if_neg hp] at h
    rcases List.mem_append.mp h with h' | h'
    · exact Or.inl h'
    · exact Or.inr (List.mem_singleton.mp h')

lemma mem_foldl_insertPathSet :
    ∀ (l : List RPath) (dirs : List RPath) (x : RPath),
      x ∈ l.foldl insertPathSet dirs → x ∈ dirs ∨ x ∈ l := by
  intro l
  induction l with
  | nil => intro dirs x h; exact Or.inl h
  | cons a rest ih =>
    intro dirs x h
    rw [List.foldl_cons] at h
    rcases ih (insertPathSet dirs a) x h with h' | h'
    · rcases mem_insertPathSet h' with h'' | h''
      · exact Or.inl h''
      · exact Or.inr (h'' ▸ List.mem_cons_self a rest)
    · exact Or.inr (List.mem_cons_of_mem a h')

lemma mem_addAncestorDirs {dirs : List RPath} {p x : RPath}
    (h : x ∈ addAncestorDirs dirs p) : x ∈ dirs ∨ x ∈ parentPaths p :=
  mem_foldl_insertPathSet (parentPaths p) dirs x h

lemma giplProcessEntry_good {fs : FSTree} (incl : Bool) {acc : GiplAcc}
    {en : RPath × FSTree}
    (hgood : goodEntryPath fs en.1)
    (hacc : (∀ x ∈ acc.result, goodEntryPath fs x) ∧ (∀ x ∈ acc.dirs, goodEntryPath fs x)) :
    (∀ x ∈ (giplProcessEntry incl acc en).result, goodEntryPath fs x) ∧
    (∀ x ∈ (giplProcessEntry incl acc en).dirs, goodEntryPath fs x) := by
  unfold giplProcessEntry
  simp only []
  have hacc1 : ∀ acc1 : GiplAcc,
      ((∀ x ∈ acc1.result, goodEntryPath fs x) ∧ (∀ x ∈ acc1.dirs, goodEntryPath fs x)) →
      (∀ x ∈ (if incl = true then
          { acc1 with dirs := addAncestorDirs acc1.dirs en.1 } else acc1).result,
        goodEntryPath fs x) ∧
      (∀ x ∈ (if incl = true then
          { acc1 with dirs := addAncestorDirs acc1.dirs en.1 } else acc1).dirs,
        goodEntryPath fs x) := by
    intro acc1 h1
    by_cases hincl : incl = true
    · rw [if_pos hincl]
      refine ⟨h1.1, ?_⟩
      intro x hx
      rcases mem_addAncestorDirs hx with h' | h'
      · exact h1.2 x h'
      · exact goodEntryPath_parents hgood x h'
    · rw [if_neg hincl]
      exact h1
  by_cases hd : en.2.isDir = true ∧ incl = true
  · rw [if_pos hd]
    apply hacc1
    refine ⟨hacc.1, ?_⟩
    intro x hx
    rcases mem_insertPathSet hx with h' | h'
    · exact hacc.2 x h'
    · exact h' ▸ hgood
  · rw [if_neg hd]
    apply hacc1
    refine ⟨?_, hacc.2⟩
    intro x hx
    rcases List.mem_append.mp hx with h' | h'
    · exact hacc.1 x h'
    · exact (List.mem_singleton.mp h') ▸ hgood

lemma foldl_giplProcessEntry_good {fs : FSTree} (incl : Bool) :
    ∀ (entries : List (RPath × FSTree)) (acc : GiplAcc),
      (∀ en ∈ entries, goodEntryPath fs en.1) →
      ((∀ x ∈ acc.result, goodEntryPath fs x) ∧ (∀ x ∈ acc.dirs, goodEntryPath fs x)) →
      (∀ x ∈ (entries.foldl (giplProcessEntry incl) acc).result, goodEntryPath fs x) ∧
      (∀ x ∈ (entries.foldl (giplProcessEntry incl) acc).dirs, goodEntryPath fs x) := by
  intro entries
  induction entries with
  | nil => intro acc _ hacc; exact hacc
  | cons en rest ih =>
    intro acc hent hacc
    rw [List.foldl_cons]
    exact ih _ (fun e he => hent e (List.mem_cons_of_mem en he))
      (giplProcessEntry_good incl (hent en (List.mem_cons_self en rest)) hacc)

lemma giplStep_good {fs : FSTree} (incl : Bool) (hwf : fs.wf = true)
    {acc acc2 : GiplAcc} {p : RPath}
    (hacc : (∀ x ∈ acc.result, goodEntryPath fs x) ∧ (∀ x ∈ acc.dirs, goodEntryPath fs x))
    (h : giplStep fs incl acc p = .ok acc2) :
    (∀ x ∈ acc2.result, goodEntryPath fs x) ∧ (∀ x ∈ acc2.dirs, goodEntryPath fs x) := by
  unfold giplStep at h
  by_cases hddb : pathFilename p = ".ddb"
  · rw [if_pos hddb] at h
    cases h
    exact hacc
  · rw [if_neg hddb] at h
    cases hlk : lookupFS fs p with
    | none => rw [hlk] at h; cases h
    | some u =>
      rw [hlk] at h
      have hu := lookupFS_wf p fs u hwf hlk
      have hgoodp : goodEntryPath fs p := ⟨⟨u, hlk⟩, hu.2⟩
      cases u with
      | file n m c =>
        simp only [] at h
        cases h
        by_cases hincl : incl = true
        · rw [if_pos hincl]
          constructor
          · intro x hx
            rcases List.mem_append.mp hx with h' | h'
            · exact hacc.1 x h'
            · exact (List.mem_singleton.mp h') ▸ hgoodp
          · intro x hx
            rcases mem_addAncestorDirs hx with h' | h'
            · exact hacc.2 x h'
            · exact goodEntryPath_parents hgoodp x h'
        · rw [if_neg hincl]
          refine ⟨?_, hacc.2⟩
          intro x hx
          rcases List.mem_append.mp hx with h' | h'
          · exact hacc.1 x h'
          · exact (List.mem_singleton.mp h') ▸ hgoodp
      | dir n m cs =>
        simp only [] at h
        cases h
        have hcs : cs.wf = true := dir_wf_children hu.1
        have hent : ∀ en ∈ visitForest (fun nm _ => nm = ".ddb") cs p 0,
            goodEntryPath fs en.1 := by
          intro en hen
          obtain ⟨s, hq, hne, hlkf, hsegs⟩ :=
            visitForest_resolves (fun nm _ => nm = ".ddb") cs p 0 hcs en.1 en.2 hen
          refine ⟨⟨en.2, ?_⟩, ?_⟩
          · rw [hq, lookupFS_append, hlk]
            show lookupFS (FSTree.dir n m cs) s = some en.2
            rw [lookupFS_dir_ne_nil hne]
            exact hlkf
          · intro seg hs
            rw [hq] at hs
            rcases List.mem_append.mp hs with h' | h'
            · exact hu.2 seg h'
            · exact hsegs seg h'
        have hfold := foldl_giplProcessEntry_good incl
          (visitForest (fun nm _ => nm = ".ddb") cs p 0) acc hent hacc
        refine ⟨hfold.1, ?_⟩
        intro x hx
        rcases mem_insertPathSet hx with h' | h'
        · exact hfold.2 x h'
        · exact h' ▸ hgoodp

lemma getIndexPathList_good {fs : FSTree} {incl : Bool} (hwf : fs.wf = true)
    {paths pathList : List RPath}
    (hok : getIndexPathList fs paths incl = .ok pathList) :
    ∀ p' ∈ pathList, goodEntryPath fs p' := by
  unfold getIndexPathList at hok
  by_cases hc : ¬ pathsAreChildren paths
  · rw [if_pos hc] at hok; cases hok
  · rw [if_neg hc] at hok
    cases hacc : List.foldlM (giplStep fs incl) { result := [], dirs := [] } paths with
    | error e =>
      rw [hacc] at hok
      simp only [bind, Except.bind] at hok
      cases hok
    | ok acc =>
      rw [hacc] at hok
      simp only [bind, Except.bind, pure, Except.pure] at hok
      cases hok
      have hinv := foldlM_except_invariant (giplStep fs incl)
        (fun st => (∀ x ∈ st.result, goodEntryPath fs x) ∧
          (∀ x ∈ st.dirs, goodEntryPath fs x))
        paths { result := [], dirs := [] } acc
        (fun s x s2 _ hP hstep => giplStep_good incl hwf hP hstep)
        ⟨fun x hx => absurd hx (List.not_mem_nil x), fun x hx => absurd hx (List.not_mem_nil x)⟩
        hacc
      intro p' hp'
      rcases List.mem_append.mp hp' with h' | h'
      · exact hinv.1 p' h'
      · exact hinv.2 p' h'

lemma dbUpdate_paths {db : DB} {e r : Entry} (h : r ∈ dbUpdate db e) :
    ∃ r0 ∈ db, r.path = r0.path := by
  unfold dbUpdate at h
  obtain ⟨r0, hr0, hmap⟩ := List.mem_map.mp h
  refine ⟨r0, hr0, ?_⟩
  by_cases hc : r0.path = e.path
  · rw [if_pos hc] at hmap
    rw [← hmap]
    rfl
  · rw [if_neg hc] at hmap
    rw [← hmap]

lemma addStep_good {fs : FSTree} {acc acc2 : DB × List OutLine} {p : RPath}
    (hp : goodEntryPath fs p)
    (hacc : ∀ r ∈ acc.1, goodEntryPath fs r.path)
    (h : addStep fs acc p = .ok acc2) :
    ∀ r ∈ acc2.1, goodEntryPath fs r.path := by
  unfold addStep at h
  cases hlk : lookupFS fs p with
  | none => rw [hlk] at h; cases h
  | some node =>
    rw [hlk] at h
    simp only [] at h
    cases h
    cases hfr : findRow acc.1 p with
    | some r0 =>
      simp only [hfr]
      by_cases hcu : (checkUpdate emptyEntry node r0.mtime r0.hash).1 = true
      · rw [if_pos hcu]
        intro r hr
        obtain ⟨r1, hr1, hpath⟩ := dbUpdate_paths hr
        rw [hpath]
        exact hacc r1 hr1
      · rw [if_neg hcu]
        exact hacc
    | none =>
      simp only [hfr]
      intro r hr
      rcases List.mem_append.mp hr with h' | h'
      · exact hacc r h'
      · rw [List.mem_singleton.mp h']
        exact hp

/-- C4: every row stored by add resolves to a live filesystem object under
    the tracked root through its root-relative path, and every segment of
    that path is normalized: not "..", not ".", not empty, and free of
    separator and drive-colon characters. This holds for every candidate
    list whose resolution succeeds, provided the pre-existing rows already
    satisfied the invariant (on a wellformed filesystem). -/
theorem c4_add_paths_normalized (fs : FSTree) (db : DB) (paths : List RPath)
    (res : DB × List OutLine)
    (hwf : fs.wf = true)
    (hdb : ∀ r ∈ db, goodEntryPath fs r.path)
    (hok : addToIndex fs db paths = Except.ok res) :
    ∀ r ∈ res.1, goodEntryPath fs r.path := by
  unfold addToIndex at hok
  cases hg : getIndexPathList fs paths true with
  | error e =>
    rw [hg] at hok
    simp only [bind, Except.bind] at hok
    cases hok
  | ok pathList =>
    rw [hg] at hok
    simp only [bind, Except.bind] at hok
    have hgood := getIndexPathList_good hwf hg
    exact foldlM_except_invariant (addStep fs)
      (fun st => ∀ r ∈ st.1, goodEntryPath fs r.path)
      pathList (db, []) res
      (fun s x s2 hx hP hstep => addStep_good (hgood x hx) hP hstep)
      hdb hok

/-- Witness for C4: adding the root of the demo filesystem stores the rows
    img.jpg and sub/note.txt with live, fully normalized relative paths. -/
theorem c4_add_paths_normalized_witness :
    goodEntryPath demoFS ["img.jpg"] ∧ goodEntryPath demoFS ["sub", "note.txt"] := by
  have h := c4_add_paths_normalized demoFS [] [[]]
    ([{ path := ["img.jpg"], hash := "JPEG", type := "generic", meta := "",
        mtime := 10, size := 4, depth := 1, pointGeom := "", polygonGeom := "" },
      { path := ["sub", "note.txt"], hash := "hello", type := "generic", meta := "",
        mtime := 7, size := 5, depth := 2, pointGeom := "", polygonGeom := "" },
      { path := ["sub"], hash := "", type := "directory", meta := "",
        mtime := 5, size := 0, depth := 1, pointGeom := "", polygonGeom := "" },
      { path := [], hash := "", type := "directory", meta := "",
        mtime := 0, size := 0, depth := 0, pointGeom := "", polygonGeom := "" }],
     [OutLine.A ["img.jpg"], OutLine.A ["sub", "note.txt"], OutLine.A ["sub"],
      OutLine.A []])
    (by decide) (fun r hr => absurd hr (List.not_mem_nil r)) rfl
  exact ⟨h { path := ["img.jpg"], hash := "JPEG", type := "generic", meta := "",
             mtime := 10, size := 4, depth := 1, pointGeom := "", polygonGeom := "" }
           (by decide),
         h { path := ["sub", "note.txt"], hash := "hello", type := "generic", meta := "",
             mtime := 7, size := 5, depth := 2, pointGeom := "", polygonGeom := "" }
           (by decide)⟩
